import Mathlib

/-!
Verification of the `@gmod/hclust` hierarchical-clustering package.

The tree serialization utilities (`toNewick`, `fromNewick`, `treeToJSON`,
`printTree`) are embedded directly from `src/tree-utils.ts`.  The clustering
pipeline (`clusterData`, `hierarchicalClusterWasm`, the wasm engine) is not
part of the provided sources (only its tests are), so those parts are
modelled from the specification, as marked in their doc comments.

JavaScript `number` values are modelled as `Option ℚ`: `some q` is a finite
number with exact rational value `q`, `none` stands for a non-finite value
(`NaN`).  Strings are Lean `String`s.
-/

/-- A dendrogram node, embedding the TypeScript interface
`ClusterNode { name: string, height: number, children?: ClusterNode[] }`.
The `children` field is `none` when absent and `some l` when present
(possibly the empty array). -/
inductive ClusterNode where
  | mk (name : String) (height : Option ℚ) (children : Option (List ClusterNode))

def ClusterNode.name : ClusterNode → String
  | .mk n _ _ => n

def ClusterNode.height : ClusterNode → Option ℚ
  | .mk _ h _ => h

def ClusterNode.children : ClusterNode → Option (List ClusterNode)
  | .mk _ _ c => c

/-- Induction over `ClusterNode` descending through the nested
`Option (List ClusterNode)` children field. -/
theorem ClusterNode.nestedInd (P : ClusterNode → Prop)
    (h : ∀ nm ht cs, (∀ t, t ∈ cs.getD [] → P t) → P (.mk nm ht cs)) :
    ∀ t, P t
  | .mk nm ht cs => h nm ht cs (fun t ht' =>
      have hlt : sizeOf t < sizeOf (ClusterNode.mk nm ht cs) := by
        cases cs with
        | none => simp at ht'
        | some l =>
          simp only [Option.getD_some] at ht'
          have h1 := List.sizeOf_lt_of_mem ht'
          simp only [ClusterNode.mk.sizeOf_spec, Option.some.sizeOf_spec]
          omega
      ClusterNode.nestedInd P h t)
termination_by t => sizeOf t
decreasing_by exact hlt

/-- Rounding of `q * 10^4 + 1/2` down to an integer, computed on the
numerator and denominator so that it evaluates by kernel reduction:
for `q = n/d` with `d > 0` this is `⌊(20000·n + d) / (2·d)⌋ = ⌊q·10^4 + 1/2⌋`. -/
def scaled4 (q : ℚ) : ℕ := (mkRat (q.num * 20000 + q.den) (2 * q.den)).floor.toNat

/-- Render a non-negative rational with exactly four decimal places,
rounding half up, as JavaScript `toFixed(4)` does for a non-negative number. -/
def fixed4Nonneg (q : ℚ) : String :=
  let m : ℕ := scaled4 q
  let f := m % 10000
  toString (m / 10000) ++ "." ++
    String.mk [Nat.digitChar (f / 1000), Nat.digitChar (f / 100 % 10),
      Nat.digitChar (f / 10 % 10), Nat.digitChar (f % 10)]

/-- Threshold test of `Number.prototype.toFixed` on a non-negative value:
at magnitude `10^21` or above, `toFixed` falls back to the exponential
`ToString` rendering instead of fixed notation. -/
def jsHuge (q : ℚ) : Bool :=
  decide (1000000000000000000000 * (q.den : ℤ) ≤ q.num)

/-- The decimal significand of `⌊q⌋`: its digits with trailing zeros
removed. -/
def sigDigits (q : ℚ) : List Char :=
  ((toString q.floor.toNat).data.reverse.dropWhile (fun c => c == '0')).reverse

/-- JavaScript `ToString` for a non-negative number of magnitude at least
`10^21` (the form `d.ddd…e+NN`), on exact rationals: every JS double of
that magnitude is an integer, so the integer part's decimal expansion
supplies the significand (the shortest-round-trip digit truncation of
binary doubles is idealized away, as elsewhere in this model) and the
exponent is one less than its digit count. -/
def jsExpString (q : ℚ) : String :=
  String.mk [(sigDigits q).headD '0'] ++
    (if (sigDigits q).length ≤ 1 then ""
     else "." ++ String.mk (sigDigits q).tail) ++
    "e+" ++ toString ((toString q.floor.toNat).data.length - 1)

/-- JavaScript `x.toFixed(4)` on a non-negative exact rational: fixed
4-decimal notation below `10^21`, the exponential `ToString` form at or
above it (so `(1e21).toFixed(4)` is `"1e+21"`). -/
def toFixed4Abs (q : ℚ) : String :=
  if jsHuge q then jsExpString q else fixed4Nonneg q

/-- JavaScript `x.toFixed(4)` on an exact rational (negative numbers get a
leading minus sign; the binary-double rounding artifacts of JS are idealized
away by computing on exact rationals). -/
def toFixed4 (q : ℚ) : String :=
  if q < 0 then "-" ++ toFixed4Abs (-q) else toFixed4Abs q

/-- Formatting of a JS number by `toFixed(4)`: `NaN` renders as "NaN". -/
def fmt4 : Option ℚ → String
  | none => "NaN"
  | some q => toFixed4 q

/-- The value lies below the `10^21` magnitude threshold at which
`toFixed` switches to exponential notation. -/
def fixedRange (q : ℚ) : Prop :=
  q.num.natAbs < 1000000000000000000000 * q.den

instance (q : ℚ) : Decidable (fixedRange q) := by
  unfold fixedRange
  exact Nat.decLt _ _

theorem jsHuge_false_of_fixedRange {q : ℚ} (h : fixedRange q) :
    jsHuge q = false ∧ jsHuge (-q) = false := by
  unfold fixedRange at h
  have hnum : (-q).num = -q.num := rfl
  have hden : (-q).den = q.den := rfl
  unfold jsHuge
  rw [hnum, hden]
  constructor <;> (simp only [decide_eq_false_iff_not, not_le]; omega)

mutual
/-- Embedding of `toNewick` from `src/tree-utils.ts`: a node with no
`children` field or an empty children array renders as its bare name;
otherwise the children are rendered in brackets, comma-separated, followed
by the node height via `toFixed(4)`.  No trailing semicolon is produced. -/
def toNewick : ClusterNode → String
  | .mk name _ none => name
  | .mk name _ (some []) => name
  | .mk _ height (some (c :: cs)) =>
      "(" ++ toNewick c ++ toNewickRest cs ++ ")" ++ fmt4 height

/-- Renders `"," ++ toNewick c` for each remaining child (the `join(',')`
of the source). -/
def toNewickRest : List ClusterNode → String
  | [] => ""
  | c :: cs => "," ++ toNewick c ++ toNewickRest cs
end

mutual
/-- Embedding of `treeToJSON` from `src/tree-utils.ts`: copies `name` and
`height` unchanged and keeps a `children` property only when the input has a
non-empty children array. -/
def treeToJSON : ClusterNode → ClusterNode
  | .mk name height none => .mk name height none
  | .mk name height (some []) => .mk name height none
  | .mk name height (some (c :: cs)) =>
      .mk name height (some (treeToJSON c :: treeToJSONList cs))

def treeToJSONList : List ClusterNode → List ClusterNode
  | [] => []
  | c :: cs => treeToJSON c :: treeToJSONList cs
end

example : toNewick (.mk "Root" (some (mkRat 3 2))
    (some [.mk "Sample 0" (some 0) none, .mk "Sample 1" (some 0) none])) =
    "(Sample 0,Sample 1)1.5000" := rfl

example : toNewick (.mk "Root" (some (mkRat 123456789 100000000))
    (some [.mk "A" (some 0) none, .mk "B" (some 0) none])) =
    "(A,B)1.2346" := rfl

/-! ## The tokenizer of `fromNewick`

The source splits the input with `s.split(/\s*(;|\(|\)|,|:)\s*/)`: the string
is cut at every delimiter character, whitespace directly adjacent to a
delimiter is discarded, and because the delimiter is a capturing group it is
kept as a token of its own.  Pieces and delimiter tokens strictly alternate
in the result (a piece may be empty).  The JS `\s` class is modelled by its
ASCII members. -/

def isWS (c : Char) : Bool :=
  c = ' ' || c = '\t' || c = '\n' || c = '\r' || c = '\x0b' || c = '\x0c'

def isDelim (c : Char) : Bool :=
  c = ';' || c = '(' || c = ')' || c = ',' || c = ':'

/-- Core scan of the tokenizer.  `acc` holds the characters of the current
piece in reverse order.  On a delimiter the piece (with its trailing
whitespace stripped) and the delimiter are emitted; `skip` records that the
scan sits directly after a delimiter, where whitespace is discarded. -/
def tokAux (skip : Bool) (acc : List Char) : List Char → List String
  | [] => [String.mk acc.reverse]
  | c :: rest =>
    if skip && isWS c then tokAux true acc rest
    else if isDelim c then
      String.mk (acc.dropWhile isWS).reverse :: String.mk [c] ::
        tokAux true [] rest
    else
      tokAux false (c :: acc) rest

/-- Embedding of `s.split(/\s*(;|\(|\)|,|:)\s*/)` from `fromNewick`. -/
def tokenize (s : String) : List String := tokAux false [] s.data

example : tokenize "(A,B);" = ["", "(", "A", ",", "B", ")", "", ";", ""] := rfl
example : tokenize "A;" = ["A", ";", ""] := rfl
example : tokenize "(A:0.1, B:0.2);" =
    ["", "(", "A", ":", "0.1", ",", "B", ":", "0.2", ")", "", ";", ""] := rfl

/-! ## The parser state machine of `fromNewick` -/

/-- A node of the mutable tree that `fromNewick` builds before
`fillDefaults` runs: `name` and `height` may still be unassigned, and an
assigned height may itself be `NaN` (`some none`) when `parseFloat` failed. -/
inductive RawNode where
  | mk (name : Option String) (height : Option (Option ℚ)) (children : Option (List RawNode))

def emptyRaw : RawNode := .mk none none none

/-- The data of a node pushed on the `ancestors` stack: its `name` and
`height` so far, and its already-completed children.  The JS object's
children array is `done ++ [current subtree]`, so only `done` is stored. -/
structure PFrame where
  name : Option String
  height : Option (Option ℚ)
  done : List RawNode

/-- Machine state: the `ancestors` stack and the node `tree` currently
points to (`none` models the JS value `undefined` after popping an empty
stack). -/
def MSt := List PFrame × Option RawNode

/-- JavaScript `Number.parseFloat` on an exact-rational model: skips leading
whitespace, then reads an optional sign, an integer part, an optional
fractional part and an optional exponent, ignoring any trailing garbage;
yields `none` (`NaN`) when no digit could be read. -/
def parseDigits : List Char → ℕ × ℕ × List Char
  | [] => (0, 0, [])
  | c :: rest =>
    if c.isDigit then
      let (v, k, r) := parseDigits rest
      (c.toNat - 48) * 10 ^ k + v |> fun v' => (v', k + 1, r)
    else
      (0, 0, c :: rest)

def jsParseFloat (s : String) : Option ℚ :=
  let cs := s.data.dropWhile isWS
  let (sgn, cs) : ℤ × List Char :=
    match cs with
    | '-' :: r => (-1, r)
    | '+' :: r => (1, r)
    | r => (1, r)
  let (ip, ic, cs) := parseDigits cs
  let (fp, fc, cs) :=
    match cs with
    | '.' :: r => parseDigits r
    | r => (0, 0, r)
  if ic = 0 ∧ fc = 0 then none
  else
    let (emag, esgn) : ℕ × Bool :=
      match cs with
      | 'e' :: '-' :: r | 'E' :: '-' :: r =>
        (match parseDigits r with | (v, k, _) => if k = 0 then (0, false) else (v, true))
      | 'e' :: '+' :: r | 'E' :: '+' :: r =>
        (match parseDigits r with | (v, _, _) => (v, false))
      | 'e' :: r | 'E' :: r =>
        (match parseDigits r with | (v, _, _) => (v, false))
      | _ => (0, false)
    let base : ℤ := sgn * (ip * 10 ^ fc + fp)
    if esgn then some (mkRat base (10 ^ fc * 10 ^ emag))
    else some (mkRat (base * 10 ^ emag) (10 ^ fc))

example : jsParseFloat "0.5" = some (mkRat 1 2) := rfl
example : jsParseFloat "1.5000" = some (mkRat 3 2) := rfl
example : jsParseFloat "-2.5e1" = some (-25) := rfl
example : jsParseFloat "abc" = none := rfl
example : jsParseFloat "0.1" = some (mkRat 1 10) := rfl

/-- One iteration of the `for` loop of `fromNewick`, acting on token `tok`
whose predecessor in the token list is `prev` (`none` at the first token).
Returns `none` when the JS code would throw (a member access on
`undefined`). -/
def pstep (prev : Option String) (tok : String) (s : MSt) : Option MSt :=
  let (stack, cur) := s
  if tok = "(" then
    -- tree.children = [subtree]; ancestors.push(tree); tree = subtree
    match cur with
    | none => none
    | some (.mk nm h _) => some (⟨nm, h, []⟩ :: stack, some emptyRaw)
  else if tok = "," then
    -- ancestors.at(-1)?.children?.push(subtree); tree = subtree
    match stack with
    | [] => some ([], some emptyRaw)
    | f :: rest =>
      some (⟨f.name, f.height, f.done ++ cur.toList⟩ :: rest, some emptyRaw)
  else if tok = ")" then
    -- tree = ancestors.pop()!
    match stack with
    | [] => some ([], none)
    | f :: rest =>
      some (rest, some (.mk f.name f.height (some (f.done ++ cur.toList))))
  else if tok = ":" then
    some s
  else
    -- default case: a name token after '(' ')' ',' '' or at the start,
    -- a height token after ':'
    if prev = some ")" ∨ prev = some "(" ∨ prev = some "," ∨ prev = none ∨
        prev = some "" then
      match cur with
      | none => none
      | some (.mk _ h c) => some (stack, some (.mk (some tok) h c))
    else if prev = some ":" then
      match cur with
      | none => none
      | some (.mk nm _ c) => some (stack, some (.mk nm (some (jsParseFloat tok)) c))
    else
      some s

/-- Run the parser loop over a token list, threading the previous token. -/
def prun (prev : Option String) (toks : List String) (s : Option MSt) : Option MSt :=
  match toks with
  | [] => s
  | t :: ts => prun (some t) ts (s.bind (pstep prev t))

/-- The tree built by the token loop of `fromNewick`, before `fillDefaults`;
`none` when the JS code would throw. -/
def parseNewickRaw (s : String) : Option RawNode :=
  match prun none (tokenize s) (some ([], some emptyRaw)) with
  | some (_, some r) => some r
  | _ => none

mutual
/-- Embedding of the `fillDefaults` pass of `fromNewick`: an unassigned
(or empty, which is the same after the pass) name becomes `""` and an
unassigned height becomes `0`; an assigned `NaN` height is kept. -/
def fillNode : RawNode → ClusterNode
  | .mk nm h none => .mk (nm.getD "") (h.getD (some 0)) none
  | .mk nm h (some cs) => .mk (nm.getD "") (h.getD (some 0)) (some (fillList cs))

def fillList : List RawNode → List ClusterNode
  | [] => []
  | c :: cs => fillNode c :: fillList cs
end

/-- Embedding of `fromNewick` from `src/tree-utils.ts`: tokenize, run the
state machine, fill defaults.  `none` models a thrown `TypeError`. -/
def fromNewick (s : String) : Option ClusterNode :=
  (parseNewickRaw s).map fillNode

example : fromNewick "A;" = some (.mk "A" (some 0) none) := rfl
example : fromNewick "(A,B);" = some (.mk ";" (some 0)
    (some [.mk "A" (some 0) none, .mk "B" (some 0) none])) := rfl
example : fromNewick "(A:0.1,B:0.2)F;" = some (.mk "F" (some 0)
    (some [.mk "A" (some (mkRat 1 10)) none, .mk "B" (some (mkRat 1 5)) none])) := rfl
example : fromNewick "((A,B)E:0.5,C);" = some (.mk ";" (some 0)
    (some [.mk "E" (some (mkRat 1 2)) (some [.mk "A" (some 0) none, .mk "B" (some 0) none]),
           .mk "C" (some 0) none])) := rfl
example : fromNewick "(A:0.1,B:0.2,(C:0.3,D:0.4)E:0.5)F;" = some (.mk "F" (some 0)
    (some [.mk "A" (some (mkRat 1 10)) none, .mk "B" (some (mkRat 1 5)) none,
           .mk "E" (some (mkRat 1 2))
             (some [.mk "C" (some (mkRat 3 10)) none, .mk "D" (some (mkRat 2 5)) none])])) := rfl

/-! ## The k-partition table `clustersGivenK` (spec-modelled)

The implementation of `clusterData` (`cluster.ts`) is not part of the
provided sources; only its tests are.  Its partition table is modelled from
the specification, §4.5: run an incremental partition forward through the
merges; the entry for `k` clusters is the state after `n - k` merges and is
placed at index `k - 1`; a trailing empty entry sits at index `n`; clusters
are rendered as ascending-sorted member sequences and listed in order of
their minimum member.  Consistent with the tests, a merge `(a, b)` combines
the clusters at positions `a` and `b` of the current (min-ordered) cluster
list. -/

/-- Ordering of clusters by their first (= minimum, once sorted) member. -/
def clusterLE (c d : List ℕ) : Prop := c.headD 0 ≤ d.headD 0

instance : DecidableRel clusterLE := fun c d => Nat.decLe (c.headD 0) (d.headD 0)

instance : IsTotal (List ℕ) clusterLE := ⟨fun c d => Nat.le_total (c.headD 0) (d.headD 0)⟩

instance : IsTrans (List ℕ) clusterLE := ⟨fun _ _ _ => Nat.le_trans⟩

/-- Modelled from the spec: the initial state of the incremental partition,
`n` singleton clusters. -/
def initialClusters (n : ℕ) : List (List ℕ) := (List.range n).map (fun i => [i])

/-- Modelled from the spec: one merge applied to the current cluster list —
the clusters at positions `a` and `b` are replaced by their sorted union and
the list is re-ordered by minimum member. -/
def mergeStep (state : List (List ℕ)) (ab : ℕ × ℕ) : List (List ℕ) :=
  let c := ((state.getD ab.1 []) ++ (state.getD ab.2 [])).insertionSort (· ≤ ·)
  let rest := (state.eraseIdx (max ab.1 ab.2)).eraseIdx (min ab.1 ab.2)
  (c :: rest).insertionSort clusterLE

/-- Modelled from the spec: the partition state after the first `m` merges. -/
def stateAfter (n m : ℕ) (merges : List (ℕ × ℕ)) : List (List ℕ) :=
  (merges.take m).foldl mergeStep (initialClusters n)

/-- Modelled from the spec: the `clustersGivenK` table of `clusterData` —
index `i < n` holds the partition into `i + 1` clusters (the state after
`n - 1 - i` merges) and index `n` holds the empty sentinel. -/
def getClustersGivenK (n : ℕ) (merges : List (ℕ × ℕ)) : List (List (List ℕ)) :=
  ((List.range n).map fun i => stateAfter n (n - 1 - i) merges) ++ [[]]

/-- Validity of an engine merge sequence: the `j`-th merge names two
distinct positions in the current cluster list, which at that point has
`n - j` entries. -/
def ValidMerges (n : ℕ) (merges : List (ℕ × ℕ)) : Prop :=
  ∀ j ∈ List.range merges.length,
    (merges.getD j (0, 0)).1 ≠ (merges.getD j (0, 0)).2 ∧
    (merges.getD j (0, 0)).1 < n - j ∧ (merges.getD j (0, 0)).2 < n - j

instance (n : ℕ) (merges : List (ℕ × ℕ)) : Decidable (ValidMerges n merges) := by
  unfold ValidMerges
  exact List.decidableBAll _ _

example : getClustersGivenK 3 [(0, 1), (0, 1)] =
    [[[0, 1, 2]], [[0, 1], [2]], [[0], [1], [2]], []] := rfl
example : getClustersGivenK 1 [] = [[[0]], []] := rfl
example : getClustersGivenK 2 [(0, 1)] = [[[0, 1]], [[0], [1]], []] := rfl

/-- Invariant of the incremental partition: the clusters cover `0..n-1`
exactly (as a permutation of `range n` after flattening), there are `k` of
them, each is non-empty and ascending, and they are ordered by minimum
member. -/
structure PartInv (n k : ℕ) (state : List (List ℕ)) : Prop where
  perm : state.flatten.Perm (List.range n)
  len : state.length = k
  cls : ∀ c ∈ state, c ≠ [] ∧ c.Sorted (· ≤ ·)
  ord : List.Sorted clusterLE state

theorem perm_getD_cons_eraseIdx {α : Type} (l : List α) (i : ℕ) (d : α)
    (h : i < l.length) : l.Perm (l.getD i d :: l.eraseIdx i) := by
  induction l generalizing i with
  | nil => simp at h
  | cons x xs ih =>
    cases i with
    | zero => simp [List.getD]
    | succ j =>
      have hj : j < xs.length := by simpa using h
      have step : (x :: xs).Perm (x :: (xs.getD j d :: xs.eraseIdx j)) :=
        (ih j hj).cons x
      refine step.trans ?_
      simpa [List.getD] using List.Perm.swap (xs.getD j d) x (xs.eraseIdx j)

theorem perm_pair_extract {α : Type} (l : List α) (a b : ℕ) (d : α)
    (hab : a ≠ b) (ha : a < l.length) (hb : b < l.length) :
    l.Perm (l.getD a d :: l.getD b d ::
      (l.eraseIdx (max a b)).eraseIdx (min a b)) := by
  rcases Nat.lt_or_ge a b with hlt | hge
  · have hmax : max a b = b := Nat.max_eq_right (Nat.le_of_lt hlt)
    have hmin : min a b = a := Nat.min_eq_left (Nat.le_of_lt hlt)
    rw [hmax, hmin]
    have h1 : l.Perm (l.getD b d :: l.eraseIdx b) := perm_getD_cons_eraseIdx l b d hb
    have ha' : a < (l.eraseIdx b).length := by
      rw [List.length_eraseIdx]
      simp only [hb, if_true]
      omega
    have h2 : (l.eraseIdx b).Perm ((l.eraseIdx b).getD a d :: (l.eraseIdx b).eraseIdx a) :=
      perm_getD_cons_eraseIdx (l.eraseIdx b) a d ha'
    have hkeep : (l.eraseIdx b).getD a d = l.getD a d := by
      rw [List.getD_eq_getElem l d ha, List.getD_eq_getElem _ d ha',
        List.getElem_eraseIdx]
      simp [hlt]
    rw [hkeep] at h2
    exact (h1.trans (h2.cons (l.getD b d))).trans
      (List.Perm.swap (l.getD a d) (l.getD b d) _)
  · have hlt : b < a := Nat.lt_of_le_of_ne hge (Ne.symm hab)
    have hmax : max a b = a := Nat.max_eq_left (Nat.le_of_lt hlt)
    have hmin : min a b = b := Nat.min_eq_right (Nat.le_of_lt hlt)
    rw [hmax, hmin]
    have h1 : l.Perm (l.getD a d :: l.eraseIdx a) := perm_getD_cons_eraseIdx l a d ha
    have hb' : b < (l.eraseIdx a).length := by
      rw [List.length_eraseIdx]
      simp only [ha, if_true]
      omega
    have h2 : (l.eraseIdx a).Perm ((l.eraseIdx a).getD b d :: (l.eraseIdx a).eraseIdx b) :=
      perm_getD_cons_eraseIdx (l.eraseIdx a) b d hb'
    have hkeep : (l.eraseIdx a).getD b d = l.getD b d := by
      rw [List.getD_eq_getElem l d hb, List.getD_eq_getElem _ d hb',
        List.getElem_eraseIdx]
      simp [hlt]
    rw [hkeep] at h2
    exact h1.trans (h2.cons (l.getD a d))

theorem partInv_initial (n : ℕ) : PartInv n n (initialClusters n) := by
  constructor
  · have : (((List.range n).map fun i => [i]).flatten) = List.range n := by
      induction List.range n with
      | nil => rfl
      | cons x xs ih => simp [ih]
    simp [initialClusters, this]
  · simp [initialClusters]
  · intro c hc
    simp only [initialClusters, List.mem_map] at hc
    obtain ⟨i, _, rfl⟩ := hc
    simp
  · have : List.Pairwise (fun i j => i ≤ j) (List.range n) :=
      (List.pairwise_lt_range n).imp Nat.le_of_lt
    simpa [initialClusters, List.Sorted, List.pairwise_map, clusterLE] using this

theorem partInv_mergeStep {n k : ℕ} {state : List (List ℕ)}
    (inv : PartInv n k state) {a b : ℕ} (hab : a ≠ b) (ha : a < k) (hb : b < k) :
    PartInv n (k - 1) (mergeStep state (a, b)) := by
  have hlen := inv.len
  have ha' : a < state.length := by omega
  have hb' : b < state.length := by omega
  have hmax : max a b < state.length := by omega
  have hmin2 : min a b < (state.eraseIdx (max a b)).length := by
    rw [List.length_eraseIdx]
    simp only [hmax, if_true]
    rcases Nat.lt_or_ge a b with h | h
    · have : min a b = a := Nat.min_eq_left (Nat.le_of_lt h)
      omega
    · have hba : b < a := Nat.lt_of_le_of_ne h (Ne.symm hab)
      have : min a b = b := Nat.min_eq_right (Nat.le_of_lt hba)
      omega
  set A := state.getD a [] with hA
  set B := state.getD b [] with hB
  set rest := (state.eraseIdx (max a b)).eraseIdx (min a b) with hrest
  set c := (A ++ B).insertionSort (· ≤ ·) with hc
  have hperm0 : state.Perm (A :: B :: rest) := perm_pair_extract state a b [] hab ha' hb'
  have hcperm : c.Perm (A ++ B) := List.perm_insertionSort _ _
  have hsortperm : ((c :: rest).insertionSort clusterLE).Perm (c :: rest) :=
    List.perm_insertionSort _ _
  have hAmem : A ∈ state := by
    rw [hA, List.getD_eq_getElem state [] ha']
    exact List.getElem_mem ha'
  have hBmem : B ∈ state := by
    rw [hB, List.getD_eq_getElem state [] hb']
    exact List.getElem_mem hb'
  have hrestmem : ∀ x ∈ rest, x ∈ state := by
    intro x hx
    have h1 : rest.Sublist (state.eraseIdx (max a b)) := List.eraseIdx_sublist _ _
    have h2 : (state.eraseIdx (max a b)).Sublist state := List.eraseIdx_sublist _ _
    exact (h1.trans h2).mem hx
  constructor
  · -- flatten permutes range n
    have h1 : ((c :: rest).insertionSort clusterLE).flatten.Perm ((c :: rest).flatten) :=
      hsortperm.flatten
    have h2 : (c :: rest).flatten.Perm ((A :: B :: rest).flatten) := by
      simp only [List.flatten_cons]
      exact ((hcperm.append_right rest.flatten).trans (by simp [List.append_assoc]))
    have h3 : ((A :: B :: rest).flatten).Perm state.flatten := hperm0.flatten.symm
    exact ((h1.trans h2).trans h3).trans inv.perm
  · -- length
    have e1 : (state.eraseIdx (max a b)).length = state.length - 1 := by
      rw [List.length_eraseIdx, if_pos hmax]
    have e2 : rest.length = state.length - 2 := by
      rw [hrest, List.length_eraseIdx, if_pos hmin2, e1]
      omega
    show ((c :: rest).insertionSort clusterLE).length = k - 1
    rw [List.length_insertionSort]
    simp only [List.length_cons, e2]
    omega
  · -- clusters are non-empty and sorted
    intro x hx
    have hx2 : x ∈ c :: rest := hsortperm.mem_iff.mp hx
    rcases List.mem_cons.mp hx2 with heq | hmem
    · subst heq
      refine ⟨?_, List.sorted_insertionSort _ _⟩
      have hAne : A ≠ [] := (inv.cls A hAmem).1
      intro hcnil
      have hlc := List.length_insertionSort (r := (· ≤ · : ℕ → ℕ → Prop)) (A ++ B)
      rw [← hc, hcnil] at hlc
      simp only [List.length_nil, List.length_append] at hlc
      exact hAne (List.eq_nil_of_length_eq_zero (by omega))
    · exact inv.cls x (hrestmem x hmem)
  · exact List.sorted_insertionSort clusterLE _

theorem partInv_stateAfter (n : ℕ) (merges : List (ℕ × ℕ))
    (hv : ValidMerges n merges) :
    ∀ m, m ≤ merges.length → PartInv n (n - m) (stateAfter n m merges) := by
  intro m
  induction m with
  | zero =>
    intro _
    simpa [stateAfter] using partInv_initial n
  | succ j ih =>
    intro hle
    have hj : j < merges.length := by omega
    have inv := ih (Nat.le_of_lt hj)
    have hstep : stateAfter n (j + 1) merges =
        mergeStep (stateAfter n j merges) (merges.getD j (0, 0)) := by
      unfold stateAfter
      rw [List.take_succ, List.foldl_append]
      have : merges[j]? = some (merges.getD j (0, 0)) := by
        rw [List.getElem?_eq_getElem hj]
        rw [List.getD_eq_getElem merges (0, 0) hj]
      rw [this]
      rfl
    obtain ⟨hne, h1, h2⟩ := hv j (by simpa [List.mem_range] using hj)
    rw [hstep]
    have step := partInv_mergeStep (n := n) (k := n - j) inv
      (a := (merges.getD j (0, 0)).1) (b := (merges.getD j (0, 0)).2) hne h1 h2
    have : n - (j + 1) = n - j - 1 := by omega
    rw [this]
    simpa using step

theorem getClustersGivenK_length (n : ℕ) (merges : List (ℕ × ℕ)) :
    (getClustersGivenK n merges).length = n + 1 := by
  simp [getClustersGivenK]

theorem getClustersGivenK_getD (n : ℕ) (merges : List (ℕ × ℕ)) (i : ℕ)
    (hi : i < n) :
    (getClustersGivenK n merges).getD i [] = stateAfter n (n - 1 - i) merges := by
  rw [List.getD_eq_getElem?_getD, getClustersGivenK]
  simp [List.getElem?_append, hi]

theorem headD_mem {c : List ℕ} (h : c ≠ []) : c.headD 0 ∈ c := by
  cases c with
  | nil => exact absurd rfl h
  | cons x xs => simp

/-- Claim C1: for `n ≥ 1` samples and any valid engine merge sequence of
length `n - 1`, the `clustersGivenK` table of `clusterData` has length
`n + 1`, its entry at index `n` is the empty sequence, and for every
`i < n` the entry at `i` is a partition of `{0, …, n-1}` into exactly
`i + 1` clusters: its clusters flatten to a permutation of `range n` (each
sample appears exactly once), each cluster is a non-empty strictly
ascending sequence, and the clusters are listed in increasing order of
their minimum (= first) member. -/
theorem clusterData_clustersGivenK_partition (n : ℕ) (merges : List (ℕ × ℕ))
    (hn : 1 ≤ n) (hlen : merges.length = n - 1) (hv : ValidMerges n merges) :
    (getClustersGivenK n merges).length = n + 1 ∧
    (getClustersGivenK n merges)[n]? = some [] ∧
    ∀ i, i < n →
      ((getClustersGivenK n merges).getD i []).length = i + 1 ∧
      ((getClustersGivenK n merges).getD i []).flatten.Perm (List.range n) ∧
      (∀ c ∈ (getClustersGivenK n merges).getD i [],
        c ≠ [] ∧ c.Sorted (· < ·)) ∧
      ((getClustersGivenK n merges).getD i []).Pairwise
        (fun c d => c.headD 0 < d.headD 0) := by
  refine ⟨getClustersGivenK_length n merges, ?_, ?_⟩
  · rw [getClustersGivenK]
    rw [List.getElem?_append_right (by simp)]
    simp
  · intro i hi
    rw [getClustersGivenK_getD n merges i hi]
    have hm : n - 1 - i ≤ merges.length := by omega
    have inv := partInv_stateAfter n merges hv (n - 1 - i) hm
    have hk : n - (n - 1 - i) = i + 1 := by omega
    rw [hk] at inv
    have hnodup : (stateAfter n (n - 1 - i) merges).flatten.Nodup :=
      inv.perm.nodup_iff.mpr (List.nodup_range n)
    obtain ⟨hcl, hdisj⟩ := List.nodup_flatten.mp hnodup
    refine ⟨inv.len, inv.perm, ?_, ?_⟩
    · intro c hc
      obtain ⟨hne, hle⟩ := inv.cls c hc
      exact ⟨hne, hle.lt_of_le (hcl c hc)⟩
    · have hord : List.Pairwise clusterLE (stateAfter n (n - 1 - i) merges) :=
        inv.ord
      have hboth := hord.and hdisj
      refine hboth.imp_of_mem ?_
      intro c d hc hd hcd
      obtain ⟨hle, hdis⟩ := hcd
      have hcne : c ≠ [] := (inv.cls c hc).1
      have hdne : d ≠ [] := (inv.cls d hd).1
      refine Nat.lt_of_le_of_ne hle ?_
      intro heq
      exact hdis (headD_mem hcne) (heq ▸ headD_mem hdne)

/-- Witness for claim C1 at the concrete instance of the three-sample test:
`n = 3`, merges `[(0,1), (0,1)]`. -/
theorem clusterData_clustersGivenK_partition_witness :
    (getClustersGivenK 3 [(0, 1), (0, 1)]).length = 3 + 1 ∧
    (getClustersGivenK 3 [(0, 1), (0, 1)])[3]? = some [] ∧
    ∀ i, i < 3 →
      ((getClustersGivenK 3 [(0, 1), (0, 1)]).getD i []).length = i + 1 ∧
      ((getClustersGivenK 3 [(0, 1), (0, 1)]).getD i []).flatten.Perm
        (List.range 3) ∧
      (∀ c ∈ (getClustersGivenK 3 [(0, 1), (0, 1)]).getD i [],
        c ≠ [] ∧ c.Sorted (· < ·)) ∧
      ((getClustersGivenK 3 [(0, 1), (0, 1)]).getD i []).Pairwise
        (fun c d => c.headD 0 < d.headD 0) :=
  clusterData_clustersGivenK_partition 3 [(0, 1), (0, 1)]
    (by decide) (by decide) (by decide)

/-! ## The clustering engine and pipeline (spec-modelled)

The wasm engine and its wrappers (`wasm-wrapper.ts`, `cluster.ts`, the C
module) are not part of the provided sources.  They are modelled from the
specification: §4.1 distance input (kept abstract as a rational-valued
matrix, since the spec's Euclidean values are irrational in general), §4.3
the average-linkage loop with lowest-id tie-break and a per-iteration
cancellation poll, §4.4 the tree builder, §4.5 the partition extractor. -/

/-- Binary merge tree over sample indices, used for the §4.3 leaf order. -/
inductive MTree where
  | leaf (i : ℕ)
  | node (l r : MTree)

def MTree.leaves : MTree → List ℕ
  | .leaf i => [i]
  | .node l r => l.leaves ++ r.leaves

/-- Modelled from the spec (§4.3/§4.4): replay id-based merges over an
id-to-tree association list; each merge retires ids `a`, `b` and publishes
the combined tree under the next synthetic id. -/
def replayMerges (nodes : List (ℕ × MTree)) (nextId : ℕ) :
    List (ℕ × ℕ) → List (ℕ × MTree)
  | [] => nodes
  | (a, b) :: rest =>
    let ta := (nodes.lookup a).getD (.leaf 0)
    let tb := (nodes.lookup b).getD (.leaf 0)
    replayMerges
      ((nodes.filter fun p => p.1 != a && p.1 != b) ++ [(nextId, .node ta tb)])
      (nextId + 1) rest

/-- Modelled from the spec §4.3 step 3: the leaf visiting order is the
depth-first traversal of the merge tree, placing members contiguously. -/
def engineOrder (n : ℕ) (merges : List (ℕ × ℕ)) : List ℕ :=
  match replayMerges ((List.range n).map fun i => (i, .leaf i)) n merges with
  | [] => []
  | (_, t) :: _ => t.leaves

/-- Modelled from the spec §4.3 step 2b: scan the (lexicographically
ordered) candidate pairs keeping the first strict improvement, so ties
resolve to the lowest `a`, then lowest `b`. -/
def pickMinPair (d : ℕ → ℕ → ℚ) (pairs : List (ℕ × ℕ)) (best : ℕ × ℕ) : ℕ × ℕ :=
  pairs.foldl (fun acc p => if d p.1 p.2 < d acc.1 acc.2 then p else acc) best

/-- All unordered pairs of a list, in lexicographic order of positions. -/
def allPairs : List ℕ → List (ℕ × ℕ)
  | [] => []
  | x :: xs => (xs.map fun y => (x, y)) ++ allPairs xs

/-- Modelled from the spec §4.3: the main agglomeration loop.  `active`
holds `(id, size)` in increasing id order, `d` is the current distance
closure, `acc` the reversed merge/height log, and the fuel counts the
remaining iterations (`n - 1` in total).  The cancellation callback is
polled once per iteration (with the merge count as poll index) and aborts
the run. -/
def engineLoop (cb : ℕ → Bool) (nextId : ℕ) (active : List (ℕ × ℕ))
    (d : ℕ → ℕ → ℚ) (acc : List ((ℕ × ℕ) × ℚ)) :
    ℕ → Except Unit (List ((ℕ × ℕ) × ℚ))
  | 0 => .ok acc.reverse
  | fuel + 1 =>
    if cb acc.length then .error ()
    else
      match allPairs (active.map Prod.fst) with
      | [] => .ok acc.reverse
      | p :: ps =>
        let best := pickMinPair d ps p
        let a := best.1
        let b := best.2
        let sa := (active.lookup a).getD 0
        let sb := (active.lookup b).getD 0
        let h := d a b
        let dn := fun k => (sa * d a k + sb * d b k) * mkRat 1 (sa + sb)
        let d' := fun i j =>
          if i = j then 0
          else if i = nextId then dn j
          else if j = nextId then dn i
          else d i j
        let active' := (active.filter fun q => q.1 != a && q.1 != b) ++
          [(nextId, sa + sb)]
        engineLoop cb (nextId + 1) active' d' (((a, b), h) :: acc) fuel

/-- Ordering of `(id, members)` pairs by minimum member. -/
def pairLE (p q : ℕ × List ℕ) : Prop := p.2.headD 0 ≤ q.2.headD 0

instance : DecidableRel pairLE := fun p q => Nat.decLe (p.2.headD 0) (q.2.headD 0)

/-- Modelled from the spec: translate the engine's id-based merges into
positions within the min-ordered live cluster list, the form consumed by
the partition extractor (as exercised by the `clusterData` tests). -/
def idMergesToPos (clusters : List (ℕ × List ℕ)) (nextId : ℕ) :
    List (ℕ × ℕ) → List (ℕ × ℕ)
  | [] => []
  | (a, b) :: rest =>
    let pa := clusters.findIdx fun p => p.1 == a
    let pb := clusters.findIdx fun p => p.1 == b
    let merged := (((clusters.lookup a).getD []) ++
      ((clusters.lookup b).getD [])).insertionSort (· ≤ ·)
    let clusters' := (((nextId, merged) ::
      (clusters.filter fun p => p.1 != a && p.1 != b)).insertionSort pairLE)
    (pa, pb) :: idMergesToPos clusters' (nextId + 1) rest

/-- Per-sample display label, defaulting to `"Sample {index}"` (§3). -/
def defaultLabel (i : ℕ) : String := "Sample " ++ toString i

/-- Modelled from the spec §4.4: the tree builder — replay the merges over
an id-to-node map; each merge creates a parent node at the recorded height
with the two child nodes in merge order; leaves carry the sample labels and
height 0; for `n = 1` the sole leaf is the root. -/
def buildTreeNodes (nodes : List (ℕ × ClusterNode)) (nextId : ℕ) :
    List ((ℕ × ℕ) × ℚ) → List (ℕ × ClusterNode)
  | [] => nodes
  | ((a, b), h) :: rest =>
    let ta := (nodes.lookup a).getD (.mk "" (some 0) none)
    let tb := (nodes.lookup b).getD (.mk "" (some 0) none)
    buildTreeNodes
      ((nodes.filter fun p => p.1 != a && p.1 != b) ++
        [(nextId, .mk "" (some h) (some [ta, tb]))])
      (nextId + 1) rest

def buildTree (n : ℕ) (labels : Option (List String))
    (ms : List ((ℕ × ℕ) × ℚ)) : ClusterNode :=
  let lab := fun i => ((labels.bind fun l => l[i]?).getD (defaultLabel i))
  match buildTreeNodes
      ((List.range n).map fun i => (i, .mk (lab i) (some 0) none)) n ms with
  | [] => .mk "" (some 0) none
  | (_, t) :: _ => t

/-- The observable result of `clusterData` (§6). -/
structure ClusterResult where
  merges : List (ℕ × ℕ)
  heights : List ℚ
  order : List ℕ
  tree : ClusterNode
  clustersGivenK : List (List (List ℕ))

/-- Modelled from the spec: the end-to-end `clusterData` pipeline over an
abstract distance matrix `d` and cancellation poll `cb`; `Except.error`
is the distinct `Cancelled` outcome. -/
def clusterPipeline (n : ℕ) (d : ℕ → ℕ → ℚ) (cb : ℕ → Bool)
    (labels : Option (List String)) : Except Unit ClusterResult :=
  match engineLoop cb n ((List.range n).map fun i => (i, 1)) d [] (n - 1) with
  | .error _ => .error ()
  | .ok ms =>
    let idm := ms.map Prod.fst
    .ok { merges := idm
          heights := ms.map Prod.snd
          order := engineOrder n idm
          tree := buildTree n labels ms
          clustersGivenK := getClustersGivenK n
            (idMergesToPos ((List.range n).map fun i => (i, [i])) n idm) }

/-- Claim C6: for a single input vector (`n = 1`), `clusterData` yields no
merges, order `[0]`, the childless leaf tree `{name: "Sample 0", height: 0}`
and partition table `[[[0]], []]` — for every distance matrix and every
cancellation callback (neither is consulted). -/
theorem clusterData_singleSample (d : ℕ → ℕ → ℚ) (cb : ℕ → Bool) :
    clusterPipeline 1 d cb none = Except.ok
      { merges := []
        heights := []
        order := [0]
        tree := .mk "Sample 0" (some 0) none
        clustersGivenK := [[[0]], []] } := rfl

/-! ## Module caching (spec-modelled) -/

/-- A wasm engine module instance.  Modelled from the spec (§9): every
instance produced by the deterministic factory computes the clustering
pipeline, so a module is its clustering function. -/
def WasmModule : Type :=
  (n : ℕ) → (ℕ → ℕ → ℚ) → (ℕ → Bool) → Option (List String) →
    Except Unit ClusterResult

/-- Modelled from the spec: the deterministic module factory
(`createModule` from `distance.js`). -/
def createModule : WasmModule := clusterPipeline

/-- Modelled from the spec (§9): the lazily-initialized cached module
handle that `hierarchicalClusterWasm` reuses across sequential calls. -/
def getOrCreateModule : Option WasmModule → WasmModule × Option WasmModule
  | none => (createModule, some createModule)
  | some m => (m, some m)

/-- Modelled from the spec: one clustering call through the module cache —
obtain the (possibly cached) module, run it, return the result and the
updated cache. -/
def runClusterCall (cache : Option WasmModule) (n : ℕ) (d : ℕ → ℕ → ℚ)
    (cb : ℕ → Bool) (labels : Option (List String)) :
    Except Unit ClusterResult × Option WasmModule :=
  ((getOrCreateModule cache).1 n d cb labels, (getOrCreateModule cache).2)

/-- Claim C5: running the engine twice on identical input yields identical
results (the second call runs on the cache left by the first), and reusing
the cached module instance instead of a fresh one never changes the
observable result (merges, heights, order and the rest of the result
record coincide). -/
theorem engine_deterministic_cache_invisible (n : ℕ) (d : ℕ → ℕ → ℚ)
    (cb : ℕ → Bool) (labels : Option (List String)) :
    (runClusterCall none n d cb labels).1 =
      (runClusterCall (runClusterCall none n d cb labels).2 n d cb labels).1 ∧
    (runClusterCall (some createModule) n d cb labels).1 =
      (runClusterCall none n d cb labels).1 :=
  ⟨rfl, rfl⟩

/-! ## The wasm wrapper's resource handling (spec-modelled)

`hierarchicalClusterWasm` (`wasm-wrapper.ts`) is not part of the provided
sources.  Its resource behaviour is modelled from the specification (§7)
and the shape fixed by its tests: five buffers are allocated (flattened
input data, heights, merge halves A and B, order), an optional progress /
cancellation callback is registered through `addFunction` and
`_setProgressCallback`, the engine call `_hierarchicalCluster` runs (its
status and output buffers are parameters of the model), and a `finally`
block resets the callback pointer to 0, removes the registered function and
frees all five buffers on success and failure alike.  Engine status `-1`
yields the distinct aborted error and no result. -/

inductive WasmEvent where
  | malloc (bytes : ℕ)
  | free
  | addFunction
  | removeFunction
  | setProgressCallback (ptr : ℤ)
  deriving DecidableEq

inductive ClusterError where
  | aborted
  deriving DecidableEq

/-- The engine's outputs as read back from wasm memory. -/
structure WasmEngineOut where
  status : ℤ
  heights : List ℚ
  mergeA : List ℕ
  mergeB : List ℕ
  order : List ℕ

/-- The result record of `hierarchicalClusterWasm`. -/
structure WasmResult where
  tree : ClusterNode
  order : List ℕ
  heights : List ℚ
  merges : List (ℕ × ℕ)

/-- Modelled from the spec: `hierarchicalClusterWasm` as the trace of its
resource events paired with its outcome. -/
def hierarchicalClusterWasm (n featLen : ℕ) (labels : Option (List String))
    (hasCallback : Bool) (fptr : ℤ) (out : WasmEngineOut) :
    List WasmEvent × Except ClusterError WasmResult :=
  let allocs : List WasmEvent :=
    [.malloc (n * featLen * 4), .malloc ((n - 1) * 4), .malloc ((n - 1) * 4),
     .malloc ((n - 1) * 4), .malloc (n * 4)]
  let reg : List WasmEvent :=
    if hasCallback then [.addFunction, .setProgressCallback fptr] else []
  let cleanup : List WasmEvent :=
    (if hasCallback then [.setProgressCallback 0, .removeFunction] else []) ++
      [.free, .free, .free, .free, .free]
  let res : Except ClusterError WasmResult :=
    if out.status = -1 then .error .aborted
    else
      .ok { tree := buildTree n labels ((out.mergeA.zip out.mergeB).zip out.heights)
            order := out.order
            heights := out.heights
            merges := out.mergeA.zip out.mergeB }
  (allocs ++ reg ++ cleanup, res)

/-- Claim C3: whenever the underlying computation reports the cancelled
status (`-1`), the call raises the distinct aborted error and returns no
partial result — no `ok` value (hence no tree, merges, heights or order) is
produced. -/
theorem wasm_cancelled_aborts (n featLen : ℕ) (labels : Option (List String))
    (hasCallback : Bool) (fptr : ℤ) (out : WasmEngineOut)
    (hcancel : out.status = -1) :
    (hierarchicalClusterWasm n featLen labels hasCallback fptr out).2 =
      Except.error ClusterError.aborted ∧
    ∀ r, (hierarchicalClusterWasm n featLen labels hasCallback fptr out).2 ≠
      Except.ok r := by
  refine ⟨?_, ?_⟩
  · simp [hierarchicalClusterWasm, hcancel]
  · intro r
    simp [hierarchicalClusterWasm, hcancel]

/-- Witness for claim C3, mirroring the cancellation test: one sample,
engine status `-1`. -/
theorem wasm_cancelled_aborts_witness :
    (hierarchicalClusterWasm 1 2 none false 0
        ⟨-1, [], [], [], [0]⟩).2 = Except.error ClusterError.aborted ∧
    ∀ r, (hierarchicalClusterWasm 1 2 none false 0
        ⟨-1, [], [], [], [0]⟩).2 ≠ Except.ok r :=
  wasm_cancelled_aborts 1 2 none false 0 ⟨-1, [], [], [], [0]⟩ rfl

/-- Claim C4: on every exit path (success or failure) the wrapper's trace
frees exactly as many buffers as it allocates, removes exactly as many
registered callback functions as it adds, and, when a callback was bound,
contains the pointer reset `setProgressCallback 0` and the
`removeFunction` call. -/
theorem wasm_releases_resources (n featLen : ℕ) (labels : Option (List String))
    (hasCallback : Bool) (fptr : ℤ) (out : WasmEngineOut) :
    ((hierarchicalClusterWasm n featLen labels hasCallback fptr out).1.countP
        (fun e => match e with | .malloc _ => true | _ => false) =
      (hierarchicalClusterWasm n featLen labels hasCallback fptr out).1.countP
        (fun e => e == WasmEvent.free)) ∧
    ((hierarchicalClusterWasm n featLen labels hasCallback fptr out).1.countP
        (fun e => e == WasmEvent.addFunction) =
      (hierarchicalClusterWasm n featLen labels hasCallback fptr out).1.countP
        (fun e => e == WasmEvent.removeFunction)) ∧
    (hasCallback = true →
      WasmEvent.setProgressCallback 0 ∈
        (hierarchicalClusterWasm n featLen labels hasCallback fptr out).1 ∧
      WasmEvent.removeFunction ∈
        (hierarchicalClusterWasm n featLen labels hasCallback fptr out).1) := by
  cases hasCallback <;>
    simp [hierarchicalClusterWasm, List.countP_cons, List.countP_append]

/-- Witness for claim C4 at the failing-engine test instance: one sample,
bound callback, engine status `-1`. -/
theorem wasm_releases_resources_witness :
    ((hierarchicalClusterWasm 1 2 none true 12345
        ⟨-1, [], [], [], [0]⟩).1.countP
        (fun e => match e with | .malloc _ => true | _ => false) =
      (hierarchicalClusterWasm 1 2 none true 12345
        ⟨-1, [], [], [], [0]⟩).1.countP (fun e => e == WasmEvent.free)) ∧
    WasmEvent.setProgressCallback 0 ∈
      (hierarchicalClusterWasm 1 2 none true 12345 ⟨-1, [], [], [], [0]⟩).1 ∧
    WasmEvent.removeFunction ∈
      (hierarchicalClusterWasm 1 2 none true 12345 ⟨-1, [], [], [], [0]⟩).1 :=
  ⟨(wasm_releases_resources 1 2 none true 12345 ⟨-1, [], [], [], [0]⟩).1,
   (wasm_releases_resources 1 2 none true 12345 ⟨-1, [], [], [], [0]⟩).2.2 rfl⟩

/-! ## Serialization format claims -/

/-- The `join(',')` of the source: comma-separated concatenation. -/
def joinComma : List String → String
  | [] => ""
  | [x] => x
  | x :: y :: xs => x ++ "," ++ joinComma (y :: xs)

theorem toNewickRest_joinComma (c : ClusterNode) (cs : List ClusterNode) :
    toNewick c ++ toNewickRest cs = joinComma ((c :: cs).map toNewick) := by
  induction cs generalizing c with
  | nil => simp [toNewickRest, joinComma]
  | cons d ds ih =>
    simp only [List.map_cons, joinComma, toNewickRest]
    rw [← String.append_assoc, ← String.append_assoc]
    have := ih d
    simp only [List.map_cons] at this
    rw [String.append_assoc, this]

theorem digitChar_isDigit {k : ℕ} (h : k < 10) : (Nat.digitChar k).isDigit := by
  interval_cases k <;> decide

theorem takeWhile_append_stop {p : Char → Bool} (l1 : List Char) (x : Char)
    (l2 : List Char) (h1 : ∀ c ∈ l1, p c) (hx : ¬ p x) :
    (l1 ++ x :: l2).takeWhile p = l1 := by
  induction l1 with
  | nil => simp [List.takeWhile, hx]
  | cons a as ih =>
    have ha : p a := h1 a (List.mem_cons_self a as)
    simp only [List.cons_append, List.takeWhile_cons, ha, if_true]
    rw [ih (fun c hc => h1 c (List.mem_cons_of_mem a hc))]


/-- The digit block of `fixed4Nonneg r`: its four fractional digit
characters, most significant first. -/
def fracDigits (r : ℚ) : List Char :=
  [Nat.digitChar (scaled4 r % 10000 / 1000),
   Nat.digitChar (scaled4 r % 10000 / 100 % 10),
   Nat.digitChar (scaled4 r % 10000 / 10 % 10),
   Nat.digitChar (scaled4 r % 10000 % 10)]

theorem fracDigits_isDigit (r : ℚ) : ∀ ch ∈ fracDigits r, ch.isDigit := by
  have hfb : scaled4 r % 10000 < 10000 := Nat.mod_lt _ (by norm_num)
  intro ch hch
  simp only [fracDigits, List.mem_cons, List.mem_singleton] at hch
  rcases hch with rfl | rfl | rfl | rfl | h
  · exact digitChar_isDigit (by omega)
  · exact digitChar_isDigit (Nat.mod_lt _ (by norm_num))
  · exact digitChar_isDigit (Nat.mod_lt _ (by norm_num))
  · exact digitChar_isDigit (Nat.mod_lt _ (by norm_num))
  · simp at h

theorem fixed4Nonneg_data (r : ℚ) :
    (fixed4Nonneg r).data = (toString (scaled4 r / 10000)).data ++
      '.' :: fracDigits r := by
  simp [fixed4Nonneg, fracDigits, String.data_append]

theorem takeWhile_fixed4 (r : ℚ) (rest : List Char) :
    (((fixed4Nonneg r).data.reverse ++ rest).takeWhile (fun ch => ch != '.')) =
      (fracDigits r).reverse := by
  rw [fixed4Nonneg_data]
  simp only [List.reverse_append, List.reverse_cons, List.append_assoc]
  exact takeWhile_append_stop _ '.' _
    (by
      intro c hc
      rw [List.mem_reverse] at hc
      have hd := fracDigits_isDigit r c hc
      simp only [bne_iff_ne, ne_eq]
      intro hcontra
      rw [hcontra] at hd
      exact absurd hd (by decide))
    (by simp)

/-- Within the fixed-notation range of `toFixed` the four characters after
the final dot of `toFixed4 q` are digits: the formatted height carries
exactly four decimal places. -/
theorem toFixed4_decimals (q : ℚ) (hq : fixedRange q) :
    ((toFixed4 q).data.reverse.takeWhile (fun ch => ch != '.')).length = 4 ∧
    ∀ ch ∈ (toFixed4 q).data.reverse.takeWhile (fun ch => ch != '.'),
      ch.isDigit := by
  obtain ⟨h1, h2⟩ := jsHuge_false_of_fixedRange hq
  have key : (toFixed4 q).data.reverse.takeWhile (fun ch => ch != '.') =
      (fracDigits (if q < 0 then -q else q)).reverse := by
    unfold toFixed4 toFixed4Abs
    by_cases hneg : q < 0
    · simp only [hneg, if_true, h2, Bool.false_eq_true, if_false]
      have : ("-" ++ fixed4Nonneg (-q)).data.reverse =
          (fixed4Nonneg (-q)).data.reverse ++ ['-'] := by
        simp [String.data_append]
      rw [this, takeWhile_fixed4]
    · simp only [hneg, if_false, h1, Bool.false_eq_true]
      have : (fixed4Nonneg q).data.reverse =
          (fixed4Nonneg q).data.reverse ++ [] := by simp
      rw [this, takeWhile_fixed4]
  rw [key]
  constructor
  · simp [fracDigits]
  · intro ch hch
    rw [List.mem_reverse] at hch
    exact fracDigits_isDigit _ ch hch

/-- Counterexample to claim C7: the encoder output does not terminate in
`;` — on the §8 scenario tree it is exactly `(Sample 0,Sample 1)1.5000`,
whose final character is `0`.  Moreover the height is not always formatted
with four decimal places: a NaN height renders as `NaN` and a height of
magnitude `10^21` renders in exponential notation `1e+21`, neither of which
contains a decimal point. -/
theorem toNewick_no_semicolon :
    toNewick (.mk "Root" (some (mkRat 3 2))
      (some [.mk "Sample 0" (some 0) none, .mk "Sample 1" (some 0) none])) =
      "(Sample 0,Sample 1)1.5000" ∧
    (toNewick (.mk "Root" (some (mkRat 3 2))
      (some [.mk "Sample 0" (some 0) none,
             .mk "Sample 1" (some 0) none]))).data.getLast? ≠ some ';' ∧
    toNewick (.mk "Root" (none : Option ℚ)
      (some [.mk "A" (some 0) none, .mk "B" (some 0) none])) = "(A,B)NaN" ∧
    '.' ∉ "NaN".data ∧
    toFixed4 (mkRat 1000000000000000000000 1) = "1e+21" ∧
    '.' ∉ "1e+21".data := by
  exact ⟨rfl, by decide, rfl, by decide, rfl, by decide⟩
/-- Claim C9: a node with no children field or an empty children list
serializes to exactly its name (for every height — a leaf's height is never
written), and for nodes with children the name is never written: the
serialization is invariant under changing the name. -/
theorem toNewick_leaf_name_only (nm nm2 : String) (h : Option ℚ)
    (c : ClusterNode) (cs : List ClusterNode) :
    toNewick (.mk nm h none) = nm ∧
    toNewick (.mk nm h (some [])) = nm ∧
    toNewick (.mk nm h (some (c :: cs))) =
      toNewick (.mk nm2 h (some (c :: cs))) :=
  ⟨rfl, rfl, rfl⟩

/-- Claim C10: `treeToJSON` copies `name` and `height` unchanged (no
rounding) and its result has a `children` property exactly when the input's
children field exists and is non-empty; an empty children array is dropped,
making the node a leaf in the JSON output. -/
theorem treeToJSON_shape (t : ClusterNode) :
    (treeToJSON t).name = t.name ∧
    (treeToJSON t).height = t.height ∧
    ((treeToJSON t).children.isSome ↔
      ∃ l, t.children = some l ∧ l ≠ []) := by
  cases t with
  | mk nm h c =>
    match c with
    | none =>
      refine ⟨rfl, rfl, ?_⟩
      simp [treeToJSON, ClusterNode.children]
    | some [] =>
      refine ⟨rfl, rfl, ?_⟩
      simp [treeToJSON, ClusterNode.children]
    | some (x :: xs) =>
      refine ⟨rfl, rfl, ?_⟩
      simp [treeToJSON, ClusterNode.children]

/-! ## Round-trip of `fromNewick` after `toNewick`

The encoder writes no `:` before heights and drops internal names, so
parsing its output assigns each serialized height string as the *name* of
the corresponding internal node and leaves every height unset (hence 0
after `fillDefaults`).  Leaf names survive exactly when they contain no
delimiter characters and no whitespace adjacent to a delimiter.  The
following development proves this characterization. -/

/-- A name that survives the tokenizer unchanged: no delimiter characters,
no leading and no trailing whitespace. -/
def goodName (s : String) : Bool :=
  s.data.all (fun c => !isDelim c) &&
  (match s.data.head? with | none => true | some c => !isWS c) &&
  (match s.data.getLast? with | none => true | some c => !isWS c)

mutual
/-- Every name written to the serialization (leaf names) is a `goodName`. -/
def goodTree : ClusterNode → Bool
  | .mk nm _ none => goodName nm
  | .mk nm _ (some []) => goodName nm
  | .mk _ _ (some (c :: cs)) => goodTree c && goodForest cs

def goodForest : List ClusterNode → Bool
  | [] => true
  | c :: cs => goodTree c && goodForest cs
end

mutual
/-- The image of a tree under encode-then-parse: leaves keep their name
and get height 0; an internal node's name becomes its formatted height
string, its height becomes 0, and its children are transformed
recursively. -/
def rtModel : ClusterNode → ClusterNode
  | .mk nm _ none => .mk nm (some 0) none
  | .mk nm _ (some []) => .mk nm (some 0) none
  | .mk _ h (some (c :: cs)) =>
      .mk (fmt4 h) (some 0) (some (rtModel c :: rtModelList cs))

def rtModelList : List ClusterNode → List ClusterNode
  | [] => []
  | c :: cs => rtModel c :: rtModelList cs
end

mutual
/-- The raw parse (before `fillDefaults`) of the encoding of a tree. -/
def rawRT : ClusterNode → RawNode
  | .mk nm _ none => .mk (some nm) none none
  | .mk nm _ (some []) => .mk (some nm) none none
  | .mk _ h (some (c :: cs)) =>
      .mk (some (fmt4 h)) none (some (rawRT c :: rawRTList cs))

def rawRTList : List ClusterNode → List RawNode
  | [] => []
  | c :: cs => rawRT c :: rawRTList cs
end

mutual
/-- The leaf names of a tree, left to right. -/
def leafNames : ClusterNode → List String
  | .mk nm _ none => [nm]
  | .mk nm _ (some []) => [nm]
  | .mk _ _ (some (c :: cs)) => leafNames c ++ leafNamesList cs

def leafNamesList : List ClusterNode → List String
  | [] => []
  | c :: cs => leafNames c ++ leafNamesList cs
end

theorem fillNode_rawRT (t : ClusterNode) : fillNode (rawRT t) = rtModel t := by
  induction t using ClusterNode.nestedInd with
  | _ nm ht cs ih =>
    match cs with
    | none => rfl
    | some [] => rfl
    | some (c :: cs') =>
      simp only [rawRT, rtModel, fillNode, ClusterNode.mk.injEq, true_and]
      have hlist : ∀ l, (∀ x ∈ l, fillNode (rawRT x) = rtModel x) →
          fillList (rawRTList l) = rtModelList l := by
        intro l
        induction l with
        | nil => intro _; rfl
        | cons x xs ihx =>
          intro hmem
          simp only [rawRTList, fillList, rtModelList]
          rw [hmem x (List.mem_cons_self x xs),
            ihx (fun y hy => hmem y (List.mem_cons_of_mem x hy))]
      have hc : fillNode (rawRT c) = rtModel c :=
        ih c (by simp)
      have hcs : fillList (rawRTList cs') = rtModelList cs' := by
        refine hlist cs' ?_
        intro x hx
        exact ih x (by simp [hx])
      simp [fillList, hc, hcs]

theorem leafNames_rtModel (t : ClusterNode) :
    leafNames (rtModel t) = leafNames t := by
  induction t using ClusterNode.nestedInd with
  | _ nm ht cs ih =>
    match cs with
    | none => rfl
    | some [] => rfl
    | some (c :: cs') =>
      simp only [rtModel, leafNames]
      have hlist : ∀ l, (∀ x ∈ l, leafNames (rtModel x) = leafNames x) →
          leafNamesList (rtModelList l) = leafNamesList l := by
        intro l
        induction l with
        | nil => intro _; rfl
        | cons x xs ihx =>
          intro hmem
          simp only [rtModelList, leafNamesList]
          rw [hmem x (List.mem_cons_self x xs),
            ihx (fun y hy => hmem y (List.mem_cons_of_mem x hy))]
      rw [ih c (by simp), hlist cs' (fun x hx => ih x (by simp [hx]))]

theorem delim_not_ws {c : Char} (h : isDelim c = true) : isWS c = false := by
  simp only [isDelim, Bool.or_eq_true, decide_eq_true_eq] at h
  rcases h with ((((rfl | rfl) | rfl) | rfl) | rfl) <;> rfl

theorem digit_not_special {c : Char} (h : c.isDigit = true) :
    isDelim c = false ∧ isWS c = false := by
  constructor
  · by_contra hcon
    rw [Bool.not_eq_false] at hcon
    simp only [isDelim, Bool.or_eq_true, decide_eq_true_eq] at hcon
    rcases hcon with ((((rfl | rfl) | rfl) | rfl) | rfl) <;> exact absurd h (by decide)
  · by_contra hcon
    rw [Bool.not_eq_false] at hcon
    simp only [isWS, Bool.or_eq_true, decide_eq_true_eq] at hcon
    rcases hcon with (((((rfl | rfl) | rfl) | rfl) | rfl) | rfl) <;>
      exact absurd h (by decide)

theorem toDigitsCore_digits (fuel n : ℕ) (ds : List Char)
    (hds : ∀ c ∈ ds, c.isDigit) :
    ∀ c ∈ Nat.toDigitsCore 10 fuel n ds, c.isDigit := by
  induction fuel generalizing n ds with
  | zero => simpa [Nat.toDigitsCore] using hds
  | succ f ih =>
    intro c hc
    rw [Nat.toDigitsCore] at hc
    by_cases hz : n / 10 = 0
    · rw [if_pos hz] at hc
      rcases List.mem_cons.mp hc with rfl | hmem
      · exact digitChar_isDigit (Nat.mod_lt _ (by norm_num))
      · exact hds c hmem
    · rw [if_neg hz] at hc
      refine ih (n / 10) _ ?_ c hc
      intro x hx
      rcases List.mem_cons.mp hx with rfl | hmem
      · exact digitChar_isDigit (Nat.mod_lt _ (by norm_num))
      · exact hds x hmem

theorem natRepr_digits (n : ℕ) : ∀ c ∈ (toString n).data, c.isDigit := by
  intro c hc
  have : (toString n).data = Nat.toDigits 10 n := rfl
  rw [this, Nat.toDigits] at hc
  exact toDigitsCore_digits _ n [] (by simp) c hc

theorem sigDigits_digits (q : ℚ) : ∀ c ∈ sigDigits q, c.isDigit := by
  intro c hc
  unfold sigDigits at hc
  rw [List.mem_reverse] at hc
  have hc2 := (List.dropWhile_sublist _).mem hc
  rw [List.mem_reverse] at hc2
  exact natRepr_digits _ c hc2

theorem jsExpString_chars (q : ℚ) :
    ∀ c ∈ (jsExpString q).data, isDelim c = false ∧ isWS c = false := by
  intro c hc
  have hdata : (jsExpString q).data =
      (sigDigits q).headD '0' ::
      ((if (sigDigits q).length ≤ 1 then [] else '.' :: (sigDigits q).tail) ++
        ('e' :: '+' ::
          (toString ((toString q.floor.toNat).data.length - 1)).data)) := by
    unfold jsExpString
    by_cases hr : (sigDigits q).length ≤ 1 <;> simp [hr, String.data_append]
  rw [hdata] at hc
  have hhead : ((sigDigits q).headD '0').isDigit := by
    match hs : sigDigits q with
    | [] => decide
    | d :: rest =>
      have : d ∈ sigDigits q := by rw [hs]; simp
      simpa using sigDigits_digits q d this
  rcases List.mem_cons.mp hc with rfl | hc
  · exact digit_not_special hhead
  rw [List.mem_append] at hc
  rcases hc with hc | hc
  · by_cases hr : (sigDigits q).length ≤ 1
    · rw [if_pos hr] at hc
      simp at hc
    · rw [if_neg hr] at hc
      rcases List.mem_cons.mp hc with rfl | hc
      · exact ⟨rfl, rfl⟩
      · exact digit_not_special
          (sigDigits_digits q c (List.mem_of_mem_tail hc))
  · rcases List.mem_cons.mp hc with rfl | hc
    · exact ⟨rfl, rfl⟩
    rcases List.mem_cons.mp hc with rfl | hc
    · exact ⟨rfl, rfl⟩
    · exact digit_not_special (natRepr_digits _ c hc)

theorem fixed4Nonneg_chars (r : ℚ) :
    ∀ c ∈ (fixed4Nonneg r).data, isDelim c = false ∧ isWS c = false := by
  intro c hc
  rw [fixed4Nonneg_data] at hc
  rw [List.mem_append] at hc
  rcases hc with hc | hc
  · exact digit_not_special (natRepr_digits _ c hc)
  · rcases List.mem_cons.mp hc with rfl | hc
    · exact ⟨rfl, rfl⟩
    · exact digit_not_special (fracDigits_isDigit r c hc)

theorem toFixed4Abs_chars (r : ℚ) :
    ∀ c ∈ (toFixed4Abs r).data, isDelim c = false ∧ isWS c = false := by
  intro c hc
  unfold toFixed4Abs at hc
  cases hh : jsHuge r
  · rw [hh] at hc
    simp only [Bool.false_eq_true, if_false] at hc
    exact fixed4Nonneg_chars r c hc
  · rw [hh] at hc
    simp only [if_true] at hc
    exact jsExpString_chars r c hc

theorem fmt4_chars (h : Option ℚ) :
    ∀ c ∈ (fmt4 h).data, isDelim c = false ∧ isWS c = false := by
  match h with
  | none =>
    intro c hc
    simp only [fmt4] at hc
    rcases List.mem_cons.mp hc with rfl | hc
    · exact ⟨rfl, rfl⟩
    rcases List.mem_cons.mp hc with rfl | hc
    · exact ⟨rfl, rfl⟩
    rcases List.mem_cons.mp hc with rfl | hc
    · exact ⟨rfl, rfl⟩
    · simp at hc
  | some q =>
    intro c hc
    simp only [fmt4, toFixed4] at hc
    by_cases hq : q < 0
    · rw [if_pos hq] at hc
      have : ("-" ++ toFixed4Abs (-q)).data = '-' :: (toFixed4Abs (-q)).data := by
        simp [String.data_append]
      rw [this] at hc
      rcases List.mem_cons.mp hc with rfl | hc
      · exact ⟨rfl, rfl⟩
      · exact toFixed4Abs_chars (-q) c hc
    · rw [if_neg hq] at hc
      exact toFixed4Abs_chars q c hc

/-- The `toFixed(4)` rendering of a JS number is never the empty string. -/
theorem fmt4_data_ne_nil (h : Option ℚ) : (fmt4 h).data ≠ [] := by
  match h with
  | none => simp [fmt4]
  | some q =>
    simp only [fmt4, toFixed4]
    by_cases hq : q < 0
    · rw [if_pos hq]
      simp [String.data_append]
    · rw [if_neg hq]
      unfold toFixed4Abs
      cases hh : jsHuge q
      · simp only [Bool.false_eq_true, if_false]
        rw [fixed4Nonneg_data]
        simp
      · simp only [if_true]
        unfold jsExpString
        by_cases hr : (sigDigits q).length ≤ 1 <;> simp [hr, String.data_append]

/-- A string all of whose characters are non-delimiters, with no leading or
trailing whitespace, is a `goodName`; in particular every `fmt4` output is. -/
theorem goodName_of_chars (s : String)
    (h : ∀ c ∈ s.data, isDelim c = false ∧ isWS c = false) :
    goodName s = true := by
  simp only [goodName, Bool.and_eq_true, List.all_eq_true]
  refine ⟨⟨?_, ?_⟩, ?_⟩
  · intro c hc
    simp [(h c hc).1]
  · match hs : s.data with
    | [] => rfl
    | c :: cs =>
      simp only [List.head?_cons]
      have := (h c (by rw [hs]; simp)).2
      simp [this]
  · match hs : s.data.getLast? with
    | none => rfl
    | some c =>
      have hmem : c ∈ s.data := List.mem_of_mem_getLast? hs
      simp [(h c hmem).2]

theorem goodName_fmt4 (h : Option ℚ) : goodName (fmt4 h) = true :=
  goodName_of_chars _ (fmt4_chars h)

/-- Claim C7 (amended): on every node with children, `toNewick` produces the
bracket notation `(child1,child2,...)height` recursively, the height being
rendered by `toFixed(4)`; whenever the height is a finite number in the
fixed-notation range of `toFixed` (magnitude below `10^21`) that rendering
carries exactly four decimal places — four digit characters after the final
dot — while a NaN height renders as `NaN` and a huge height in exponential
notation; and the output never terminates in `;`: its final character is
never a delimiter. -/
theorem toNewick_internal_format (nm : String) (h : Option ℚ)
    (c : ClusterNode) (cs : List ClusterNode) :
    toNewick (.mk nm h (some (c :: cs))) =
      "(" ++ joinComma ((c :: cs).map toNewick) ++ ")" ++ fmt4 h ∧
    (∀ q, h = some q → fixedRange q →
      ((toFixed4 q).data.reverse.takeWhile (fun ch => ch != '.')).length = 4 ∧
      ∀ ch ∈ (toFixed4 q).data.reverse.takeWhile (fun ch => ch != '.'),
        ch.isDigit) ∧
    ∀ ch, (toNewick (.mk nm h (some (c :: cs)))).data.getLast? = some ch →
      ch ≠ ';' := by
  refine ⟨?_, ?_, ?_⟩
  · show "(" ++ toNewick c ++ toNewickRest cs ++ ")" ++ fmt4 h = _
    rw [String.append_assoc "(" (toNewick c), toNewickRest_joinComma]
  · intro q hq hrange
    exact toFixed4_decimals q hrange
  · intro ch hch
    have hdata : (toNewick (.mk nm h (some (c :: cs)))).data =
        ("(" ++ toNewick c ++ toNewickRest cs ++ ")").data ++
          (fmt4 h).data := by
      show ("(" ++ toNewick c ++ toNewickRest cs ++ ")" ++ fmt4 h).data = _
      simp [String.data_append]
    rw [hdata, List.getLast?_append] at hch
    match hl : (fmt4 h).data.getLast? with
    | none => exact absurd (List.getLast?_eq_none_iff.mp hl) (fmt4_data_ne_nil h)
    | some x =>
      rw [hl] at hch
      have hx : x = ch := by simpa using hch
      subst hx
      have hmem := List.mem_of_mem_getLast? hl
      have hnd := (fmt4_chars h x hmem).1
      intro hcontra
      rw [hcontra] at hnd
      exact absurd hnd (by decide)

/-- Witness: `toNewick_internal_format` applied to the §8 scenario tree,
whose height `3/2` lies in the fixed-notation range. -/
theorem toNewick_internal_format_witness :
    toNewick (.mk "Root" (some (mkRat 3 2))
      (some [.mk "Sample 0" (some 0) none, .mk "Sample 1" (some 0) none])) =
      "(" ++ joinComma ([ClusterNode.mk "Sample 0" (some 0) none,
        ClusterNode.mk "Sample 1" (some 0) none].map toNewick) ++ ")" ++
        fmt4 (some (mkRat 3 2)) ∧
    ((toFixed4 (mkRat 3 2)).data.reverse.takeWhile
        (fun ch => ch != '.')).length = 4 ∧
    ('0' : Char) ≠ ';' := by
  have h := toNewick_internal_format "Root" (some (mkRat 3 2))
    (.mk "Sample 0" (some 0) none) [.mk "Sample 1" (some 0) none]
  exact ⟨h.1, (h.2.1 (mkRat 3 2) rfl (by decide)).1, h.2.2 '0' (by rfl)⟩

mutual
/-- The token list that `tokenize` produces for the encoding of a tree when
it appears directly after a delimiter (or at the start of the input):
a leaf contributes its bare name as one piece; an internal node contributes
an empty piece (inserted by the tokenizer between two adjacent delimiters),
the bracket tokens around its children and the formatted height piece. -/
def paddedToks : ClusterNode → List String
  | .mk nm _ none => [nm]
  | .mk nm _ (some []) => [nm]
  | .mk _ h (some (c :: cs)) =>
      "" :: "(" :: paddedToks c ++ restToks cs ++ [")", fmt4 h]

def restToks : List ClusterNode → List String
  | [] => []
  | c :: cs => "," :: paddedToks c ++ restToks cs
end

/-- The final piece of `paddedToks`. -/
def lastTok : ClusterNode → String
  | .mk nm _ none => nm
  | .mk nm _ (some []) => nm
  | .mk _ h (some (_ :: _)) => fmt4 h

/-- `paddedToks` without its final piece. -/
def initToks : ClusterNode → List String
  | .mk _ _ none => []
  | .mk _ _ (some []) => []
  | .mk _ _ (some (c :: cs)) =>
      "" :: "(" :: paddedToks c ++ restToks cs ++ [")"]

theorem paddedToks_eq (t : ClusterNode) :
    paddedToks t = initToks t ++ [lastTok t] := by
  match t with
  | .mk nm h none => rfl
  | .mk nm h (some []) => rfl
  | .mk nm h (some (c :: cs)) =>
    simp [paddedToks, initToks, lastTok]

/-- The token stream continuing a scan that sits at the end of the piece
`piece` with the remaining characters `rest`: if the input is exhausted the
piece is the final token, otherwise the head of `rest` is a delimiter that
closes the piece. -/
def contPiece (piece : String) : List Char → List String
  | [] => [piece]
  | d :: r => piece :: String.mk [d] :: tokAux true [] r

/-- The remaining input either is exhausted or starts with a delimiter. -/
def DelimHeadOrNil (l : List Char) : Prop :=
  l = [] ∨ ∃ d r, l = d :: r ∧ isDelim d = true

theorem tokAux_scan (xs : List Char) (acc rest : List Char)
    (h : ∀ c ∈ xs, isDelim c = false) :
    tokAux false acc (xs ++ rest) = tokAux false (xs.reverse ++ acc) rest := by
  induction xs generalizing acc with
  | nil => simp
  | cons c cs ih =>
    have hc : isDelim c = false := h c (by simp)
    simp only [List.cons_append, tokAux, Bool.false_and, Bool.false_eq_true,
      if_false, hc, List.append_eq]
    rw [ih (c :: acc) (fun x hx => h x (by simp [hx]))]
    simp

theorem dropWhile_eq_self_of_getLast {l : List Char}
    (h : ∀ c, l.getLast? = some c → isWS c = false) :
    l.reverse.dropWhile isWS = l.reverse := by
  match hrev : l.reverse with
  | [] => rfl
  | y :: ys =>
    have hy : l.getLast? = some y := by
      rw [← List.head?_reverse, hrev]
      rfl
    simp [List.dropWhile_cons, h y hy]

/-- Scanning one good piece directly after a delimiter yields the piece
and the continuation on the rest of the input. -/
theorem piece_scan (nm : String) (hg : goodName nm = true) (rest : List Char)
    (hrest : DelimHeadOrNil rest) :
    tokAux true [] (nm.data ++ rest) = contPiece nm rest := by
  simp only [goodName, Bool.and_eq_true, List.all_eq_true] at hg
  obtain ⟨⟨hall, hhead⟩, hlast⟩ := hg
  have hlast' : ∀ c, nm.data.getLast? = some c → isWS c = false := by
    intro c hc
    rw [hc] at hlast
    simpa using hlast
  match hdat : nm.data with
  | [] =>
    have hnm : nm = String.mk [] := by
      cases nm
      simp_all
    rcases hrest with rfl | ⟨d, r, rfl, hd⟩
    · simp [tokAux, contPiece, hnm]
    · simp only [List.nil_append, tokAux, delim_not_ws hd, Bool.and_false,
        Bool.false_eq_true, if_false, hd, if_true, contPiece, hnm]
      simp
  | c :: cs =>
    have hc : isWS c = false := by
      rw [hdat] at hhead
      simpa using hhead
    have hcd : isDelim c = false := by
      have := hall c (by rw [hdat]; simp)
      simpa using this
    rw [hdat] at hlast' hall
    simp only [List.cons_append, tokAux, hc, Bool.and_false, Bool.false_eq_true,
      if_false, hcd, List.append_eq]
    rw [tokAux_scan cs [c] rest
      (fun x hx => by simpa using hall x (by simp [hx]))]
    have hacc : cs.reverse ++ [c] = (c :: cs).reverse := by simp
    rw [hacc]
    have hstr : String.mk (c :: cs) = nm := by
      cases nm
      simp_all
    rcases hrest with rfl | ⟨d, r, rfl, hd⟩
    · simp only [tokAux, List.reverse_reverse, contPiece, hstr]
    · have hnodrop : (c :: cs).reverse.dropWhile isWS = (c :: cs).reverse :=
        dropWhile_eq_self_of_getLast hlast'
      simp only [tokAux, delim_not_ws hd, Bool.and_false, Bool.false_eq_true,
        if_false, hd, if_true, contPiece, hnodrop, List.reverse_reverse, hstr]

/-- Statement: the encoding of `t`, followed by any delimiter-headed (or
empty) rest, tokenizes to `t`'s tokens with its last piece continuing into
the rest. -/
def EncToks (t : ClusterNode) : Prop :=
  ∀ rest, DelimHeadOrNil rest →
    tokAux true [] ((toNewick t).data ++ rest) =
      initToks t ++ contPiece (lastTok t) rest

theorem delimHead_restEnc (cs : List ClusterNode) (rest : List Char) :
    DelimHeadOrNil ((toNewickRest cs).data ++ ')' :: rest) := by
  match cs with
  | [] => exact Or.inr ⟨')', rest, by simp [toNewickRest], rfl⟩
  | c :: cs' =>
    refine Or.inr ⟨',', (toNewick c ++ toNewickRest cs').data ++ ')' :: rest, ?_, rfl⟩
    simp [toNewickRest, String.data_append]

theorem goodForest_mem {cs : List ClusterNode} (hg : goodForest cs = true) :
    ∀ c ∈ cs, goodTree c = true := by
  induction cs with
  | nil =>
    intro c hc
    simp at hc
  | cons x xs ih =>
    have h2 : goodTree x = true ∧ goodForest xs = true := by
      simpa [goodForest, Bool.and_eq_true] using hg
    intro c hc
    rcases List.mem_cons.mp hc with rfl | hm
    · exact h2.1
    · exact ih h2.2 c hm

theorem contPiece_forest (cs : List ClusterNode)
    (hrec : ∀ c ∈ cs, EncToks c) (hg : goodForest cs = true)
    (p : String) (rest : List Char) :
    contPiece p ((toNewickRest cs).data ++ ')' :: rest) =
      p :: restToks cs ++ ")" :: tokAux true [] rest := by
  induction cs generalizing p with
  | nil => simp [toNewickRest, contPiece, restToks]
  | cons c cs' ih =>
    have hgood : goodTree c = true ∧ goodForest cs' = true := by
      simpa [goodForest, Bool.and_eq_true] using hg
    have hdata : (toNewickRest (c :: cs')).data =
        ',' :: ((toNewick c).data ++ (toNewickRest cs').data) := by
      simp [toNewickRest, String.data_append]
    rw [hdata]
    show p :: String.mk [','] :: tokAux true []
        (((toNewick c).data ++ (toNewickRest cs').data) ++ ')' :: rest) = _
    have hassoc : ((toNewick c).data ++ (toNewickRest cs').data) ++ ')' :: rest =
        (toNewick c).data ++ ((toNewickRest cs').data ++ ')' :: rest) := by
      simp
    rw [hassoc,
      hrec c (by simp) _ (delimHead_restEnc cs' rest),
      ih (fun x hx => hrec x (by simp [hx])) hgood.2 (lastTok c)]
    simp only [restToks, paddedToks_eq c, List.cons_append, List.append_assoc,
      List.singleton_append]
    rfl

theorem encToks_of_goodTree (t : ClusterNode) (hg : goodTree t = true) :
    EncToks t := by
  induction t using ClusterNode.nestedInd with
  | _ nm ht cs ih =>
    match cs with
    | none =>
      intro rest hrest
      exact piece_scan nm (by simpa [goodTree] using hg) rest hrest
    | some [] =>
      intro rest hrest
      exact piece_scan nm (by simpa [goodTree] using hg) rest hrest
    | some (c :: cs') =>
      intro rest hrest
      have hgood : goodTree c = true ∧ goodForest cs' = true := by
        simpa [goodTree, Bool.and_eq_true] using hg
      have hdata : (toNewick (.mk nm ht (some (c :: cs')))).data =
          '(' :: ((toNewick c).data ++ ((toNewickRest cs').data ++
            ')' :: (fmt4 ht).data)) := by
        show ("(" ++ toNewick c ++ toNewickRest cs' ++ ")" ++ fmt4 ht).data = _
        simp [String.data_append]
      rw [hdata]
      show tokAux true [] ('(' :: (((toNewick c).data ++ ((toNewickRest cs').data ++
        ')' :: (fmt4 ht).data)) ++ rest)) = _
      have hstep : tokAux true [] ('(' :: (((toNewick c).data ++
          ((toNewickRest cs').data ++ ')' :: (fmt4 ht).data)) ++ rest)) =
          "" :: "(" :: tokAux true [] (((toNewick c).data ++
            ((toNewickRest cs').data ++ ')' :: (fmt4 ht).data)) ++ rest) := by
        show tokAux true [] ('(' :: _) = _
        simp only [tokAux]
        rfl
      rw [hstep]
      have hassoc : ((toNewick c).data ++ ((toNewickRest cs').data ++
          ')' :: (fmt4 ht).data)) ++ rest =
          (toNewick c).data ++ ((toNewickRest cs').data ++
            ')' :: ((fmt4 ht).data ++ rest)) := by
        simp
      rw [hassoc]
      have hchild : EncToks c := ih c (by simp) hgood.1
      rw [hchild _ (delimHead_restEnc cs' ((fmt4 ht).data ++ rest))]
      rw [contPiece_forest cs'
        (fun x hx => ih x (by simp [hx]) (goodForest_mem hgood.2 x hx))
        hgood.2 (lastTok c) ((fmt4 ht).data ++ rest)]
      rw [piece_scan (fmt4 ht) (goodName_fmt4 ht) rest hrest]
      simp [initToks, lastTok, paddedToks_eq c]

theorem tokAux_flag (acc : List Char) (l : List Char)
    (h : match l with | [] => True | c :: _ => isWS c = false) :
    tokAux true acc l = tokAux false acc l := by
  match l with
  | [] => rfl
  | c :: r =>
    simp only at h
    simp [tokAux, h]

theorem tokenize_toNewick (t : ClusterNode) (hg : goodTree t = true) :
    tokenize (toNewick t) = paddedToks t := by
  have hhead : match (toNewick t).data with
      | [] => True
      | c :: _ => isWS c = false := by
    match t with
    | .mk nm h none =>
      show (match nm.data with | [] => True | c :: _ => isWS c = false)
      have hgn : goodName nm = true := by simpa [goodTree] using hg
      simp only [goodName, Bool.and_eq_true] at hgn
      match hd : nm.data with
      | [] => trivial
      | c :: _ =>
        have := hgn.1.2
        rw [hd] at this
        simpa using this
    | .mk nm h (some []) =>
      show (match nm.data with | [] => True | c :: _ => isWS c = false)
      have hgn : goodName nm = true := by simpa [goodTree] using hg
      simp only [goodName, Bool.and_eq_true] at hgn
      match hd : nm.data with
      | [] => trivial
      | c :: _ =>
        have := hgn.1.2
        rw [hd] at this
        simpa using this
    | .mk nm h (some (c :: cs)) =>
      have : (toNewick (.mk nm h (some (c :: cs)))).data =
          '(' :: ((toNewick c ++ toNewickRest cs ++ ")" ++ fmt4 h).data) := by
        show ("(" ++ toNewick c ++ toNewickRest cs ++ ")" ++ fmt4 h).data = _
        simp [String.data_append]
      rw [this]
      rfl
  have h1 : tokenize (toNewick t) = tokAux true [] ((toNewick t).data ++ []) := by
    rw [List.append_nil, tokenize, tokAux_flag [] _ hhead]
  rw [h1, encToks_of_goodTree t hg [] (Or.inl rfl)]
  rw [paddedToks_eq t]
  rfl

/-! ## Running the parser machine over the encoding's tokens -/

theorem notDelimTok (s : String) (h : ∀ c ∈ s.data, isDelim c = false) :
    s ≠ "(" ∧ s ≠ "," ∧ s ≠ ")" ∧ s ≠ ":" := by
  refine ⟨?_, ?_, ?_, ?_⟩ <;> intro heq <;> subst heq
  · exact absurd (h '(' (by decide)) (by decide)
  · exact absurd (h ',' (by decide)) (by decide)
  · exact absurd (h ')' (by decide)) (by decide)
  · exact absurd (h ':' (by decide)) (by decide)

theorem pstep_name {prev : Option String} (tok : String) (stack : List PFrame)
    (nm : Option String) (h : Option (Option ℚ)) (c : Option (List RawNode))
    (htok : ∀ ch ∈ tok.data, isDelim ch = false)
    (hprev : prev = some ")" ∨ prev = some "(" ∨ prev = some "," ∨
      prev = none ∨ prev = some "") :
    pstep prev tok (stack, some (.mk nm h c)) =
      some (stack, some (.mk (some tok) h c)) := by
  obtain ⟨h1, h2, h3, h4⟩ := notDelimTok tok htok
  simp only [pstep, h1, h2, h3, h4, if_false, if_pos hprev]

theorem pstep_open (prev : Option String) (stack : List PFrame)
    (nm : Option String) (h : Option (Option ℚ)) (c : Option (List RawNode)) :
    pstep prev "(" (stack, some (.mk nm h c)) =
      some (⟨nm, h, []⟩ :: stack, some emptyRaw) := rfl

theorem pstep_comma (prev : Option String) (f : PFrame) (stack : List PFrame)
    (r : RawNode) :
    pstep prev "," (f :: stack, some r) =
      some (⟨f.name, f.height, f.done ++ [r]⟩ :: stack, some emptyRaw) := rfl

theorem pstep_close (prev : Option String) (f : PFrame) (stack : List PFrame)
    (r : RawNode) :
    pstep prev ")" (f :: stack, some r) =
      some (stack, some (.mk f.name f.height (some (f.done ++ [r])))) := rfl

/-- The previous-token value that `prun` threads into the continuation
after processing `a`. -/
def lastD (p : Option String) (a : List String) : Option String :=
  match a.getLast? with
  | some x => some x
  | none => p

theorem lastD_cons (p : Option String) (t : String) (ts : List String) :
    lastD p (t :: ts) = lastD (some t) ts := by
  match ts with
  | [] => rfl
  | x :: xs =>
    simp only [lastD, List.getLast?_cons_cons]
    match h : (x :: xs).getLast? with
    | some y => rfl
    | none => simp [List.getLast?_eq_none_iff] at h

theorem prun_append (p : Option String) (a b : List String) (s : Option MSt) :
    prun p (a ++ b) s = prun (lastD p a) b (prun p a s) := by
  induction a generalizing p s with
  | nil => rfl
  | cons t ts ih =>
    show prun (some t) (ts ++ b) (s.bind (pstep p t)) = _
    rw [ih (some t) (s.bind (pstep p t)), lastD_cons]
    rfl

/-- Accumulate completed children: starting from completed list `done` and
in-progress node `r`, push `r` and each successive node. -/
def snocAll (done : List RawNode) (r : RawNode) : List RawNode → List RawNode × RawNode
  | [] => (done, r)
  | c :: cs => snocAll (done ++ [r]) c cs

theorem snocAll_spec (l : List RawNode) : ∀ done r,
    (snocAll done r l).1 ++ [(snocAll done r l).2] = done ++ r :: l := by
  induction l with
  | nil => intro done r; rfl
  | cons c cs ih =>
    intro done r
    show (snocAll (done ++ [r]) c cs).1 ++ [(snocAll (done ++ [r]) c cs).2] = _
    rw [ih (done ++ [r]) c]
    simp

theorem rawRTList_eq_map (cs : List ClusterNode) :
    rawRTList cs = cs.map rawRT := by
  induction cs with
  | nil => rfl
  | cons c cs' ih => simp [rawRTList, ih]

/-- Statement: running the machine over `t`'s tokens from a fresh current
node (directly after `(`, `,` or at input start) builds `rawRT t` without
touching the stack. -/
def RunChild (t : ClusterNode) : Prop :=
  ∀ (stack : List PFrame) (p : Option String),
    p = some "(" ∨ p = some "," ∨ p = none →
    prun p (paddedToks t) (some (stack, some emptyRaw)) =
      some (stack, some (rawRT t))

theorem prun_forest (cs : List ClusterNode) (hrec : ∀ c ∈ cs, RunChild c) :
    ∀ (p : Option String) (stack : List PFrame) (fnm : Option String)
      (fh : Option (Option ℚ)) (done : List RawNode) (r : RawNode),
    prun p (restToks cs) (some (⟨fnm, fh, done⟩ :: stack, some r)) =
      some (⟨fnm, fh, (snocAll done r (cs.map rawRT)).1⟩ :: stack,
        some (snocAll done r (cs.map rawRT)).2) := by
  induction cs with
  | nil =>
    intro p stack fnm fh done r
    rfl
  | cons c cs' ih =>
    intro p stack fnm fh done r
    show prun (some ",") (paddedToks c ++ restToks cs')
        ((some (⟨fnm, fh, done⟩ :: stack, some r)).bind (pstep p ",")) = _
    rw [Option.some_bind, pstep_comma]
    rw [prun_append]
    rw [hrec c (by simp) (⟨fnm, fh, done ++ [r]⟩ :: stack) (some ",") (by simp)]
    rw [ih (fun x hx => hrec x (by simp [hx]))]
    rfl

theorem goodName_chars {nm : String} (hg : goodName nm = true) :
    ∀ c ∈ nm.data, isDelim c = false := by
  simp only [goodName, Bool.and_eq_true, List.all_eq_true] at hg
  intro c hc
  simpa using hg.1.1 c hc

theorem fmt4_notDelim (h : Option ℚ) : ∀ c ∈ (fmt4 h).data, isDelim c = false :=
  fun c hc => (fmt4_chars h c hc).1

theorem runChild_of_goodTree (t : ClusterNode) (hg : goodTree t = true) :
    RunChild t := by
  induction t using ClusterNode.nestedInd with
  | _ nm ht cs ih =>
    match cs with
    | none =>
      intro stack p hp
      have hgn : goodName nm = true := by simpa [goodTree] using hg
      have hprev : p = some ")" ∨ p = some "(" ∨ p = some "," ∨ p = none ∨
          p = some "" := by
        rcases hp with rfl | rfl | rfl
        · exact Or.inr (Or.inl rfl)
        · exact Or.inr (Or.inr (Or.inl rfl))
        · exact Or.inr (Or.inr (Or.inr (Or.inl rfl)))
      show prun (some nm) []
          ((some (stack, some emptyRaw)).bind (pstep p nm)) = _
      rw [Option.some_bind]
      show pstep p nm (stack, some (.mk none none none)) = _
      rw [pstep_name nm stack none none none (goodName_chars hgn) hprev]
      rfl
    | some [] =>
      intro stack p hp
      have hgn : goodName nm = true := by simpa [goodTree] using hg
      have hprev : p = some ")" ∨ p = some "(" ∨ p = some "," ∨ p = none ∨
          p = some "" := by
        rcases hp with rfl | rfl | rfl
        · exact Or.inr (Or.inl rfl)
        · exact Or.inr (Or.inr (Or.inl rfl))
        · exact Or.inr (Or.inr (Or.inr (Or.inl rfl)))
      show prun (some nm) []
          ((some (stack, some emptyRaw)).bind (pstep p nm)) = _
      rw [Option.some_bind]
      show pstep p nm (stack, some (.mk none none none)) = _
      rw [pstep_name nm stack none none none (goodName_chars hgn) hprev]
      rfl
    | some (c :: cs') =>
      intro stack p hp
      have hgood : goodTree c = true ∧ goodForest cs' = true := by
        simpa [goodTree, Bool.and_eq_true] using hg
      have hprev : p = some ")" ∨ p = some "(" ∨ p = some "," ∨ p = none ∨
          p = some "" := by
        rcases hp with rfl | rfl | rfl
        · exact Or.inr (Or.inl rfl)
        · exact Or.inr (Or.inr (Or.inl rfl))
        · exact Or.inr (Or.inr (Or.inr (Or.inl rfl)))
      show prun (some "") ("(" :: (paddedToks c ++ restToks cs' ++ [")", fmt4 ht]))
          ((some (stack, some emptyRaw)).bind (pstep p "")) = _
      rw [Option.some_bind]
      show prun (some "") ("(" :: (paddedToks c ++ restToks cs' ++ [")", fmt4 ht]))
          (pstep p "" (stack, some (.mk none none none))) = _
      rw [pstep_name "" stack none none none (by simp) hprev]
      show prun (some "(") (paddedToks c ++ restToks cs' ++ [")", fmt4 ht])
          ((some (stack, some (RawNode.mk (some "") none none))).bind
            (pstep (some "") "(")) = _
      rw [Option.some_bind, pstep_open]
      rw [show paddedToks c ++ restToks cs' ++ [")", fmt4 ht] =
        paddedToks c ++ (restToks cs' ++ [")", fmt4 ht]) from by simp]
      rw [prun_append]
      rw [ih c (by simp) hgood.1 (⟨some "", none, []⟩ :: stack) (some "(")
        (Or.inl rfl)]
      rw [prun_append]
      rw [prun_forest cs'
        (fun x hx => ih x (by simp [hx]) (goodForest_mem hgood.2 x hx))]
      show prun (some ")") [fmt4 ht]
          ((some (⟨some "", none, (snocAll [] (rawRT c) (cs'.map rawRT)).1⟩ ::
            stack, some (snocAll [] (rawRT c) (cs'.map rawRT)).2)).bind
            (pstep (lastD (lastD (some "(") (paddedToks c)) (restToks cs')) ")")) = _
      rw [Option.some_bind, pstep_close]
      show prun (some (fmt4 ht)) []
          ((some (stack, some (.mk (some "") none
            (some ((snocAll [] (rawRT c) (cs'.map rawRT)).1 ++
              [(snocAll [] (rawRT c) (cs'.map rawRT)).2]))))).bind
            (pstep (some ")") (fmt4 ht))) = _
      rw [Option.some_bind,
        pstep_name (fmt4 ht) stack (some "") none _ (fmt4_notDelim ht)
          (Or.inl rfl)]
      rw [snocAll_spec]
      show some (stack, some (RawNode.mk (some (fmt4 ht)) none
          (some ([] ++ rawRT c :: List.map rawRT cs')))) =
        some (stack, some (rawRT (ClusterNode.mk nm ht (some (c :: cs')))))
      rw [show rawRT (ClusterNode.mk nm ht (some (c :: cs'))) =
        RawNode.mk (some (fmt4 ht)) none (some (rawRT c :: rawRTList cs')) from rfl]
      rw [rawRTList_eq_map]
      simp

theorem parseNewickRaw_toNewick (t : ClusterNode) (hg : goodTree t = true) :
    parseNewickRaw (toNewick t) = some (rawRT t) := by
  unfold parseNewickRaw
  rw [tokenize_toNewick t hg,
    runChild_of_goodTree t hg [] none (Or.inr (Or.inr rfl))]

/-- Counterexample to claim C2 as stated (round-trip for *every* tree):
with the leaf name `"a,b"` the encoding is `(a,b,c)1.5000`, which parses to
three leaves named `a`, `b`, `c`, and the root height `3/2`, present in the
serialization to 4 decimals, comes back as `0` (the height string is parsed
as the root's name). -/
theorem newick_roundtrip_counterexample :
    (fromNewick (toNewick (ClusterNode.mk "Root" (some (mkRat 3 2))
      (some [ClusterNode.mk "a,b" (some 0) none,
             ClusterNode.mk "c" (some 0) none])))).map leafNames =
      some ["a", "b", "c"] ∧
    leafNames (ClusterNode.mk "Root" (some (mkRat 3 2))
      (some [ClusterNode.mk "a,b" (some 0) none,
             ClusterNode.mk "c" (some 0) none])) = ["a,b", "c"] ∧
    (["a", "b", "c"] : List String) ≠ ["a,b", "c"] ∧
    (fromNewick (toNewick (ClusterNode.mk "Root" (some (mkRat 3 2))
      (some [ClusterNode.mk "a,b" (some 0) none,
             ClusterNode.mk "c" (some 0) none])))).map ClusterNode.height =
      some (some 0) ∧
    (some (0 : ℚ) : Option ℚ) ≠ some (mkRat 3 2) :=
  ⟨rfl, rfl, by decide, rfl, by decide⟩

/-- Claim C2 (amended): for every tree whose written (leaf) names contain
no delimiter characters and no leading or trailing whitespace,
`fromNewick (toNewick tree)` succeeds and equals `rtModel tree`: the tree
shape and all leaf names are preserved (`leafNames` agree), every parsed
height is `0` (heights are serialized without `:` and are therefore never
parsed back as heights), each internal node's serialized 4-decimal height
string becomes that node's parsed *name*, and internal names are dropped. -/
theorem newick_roundtrip (t : ClusterNode) (hg : goodTree t = true) :
    fromNewick (toNewick t) = some (rtModel t) ∧
    leafNames (rtModel t) = leafNames t := by
  refine ⟨?_, leafNames_rtModel t⟩
  rw [fromNewick, parseNewickRaw_toNewick t hg]
  rw [Option.map_some']
  rw [fillNode_rawRT]

/-- Witness for claim C2 at the §8 scenario tree. -/
theorem newick_roundtrip_witness :
    fromNewick (toNewick (ClusterNode.mk "Root" (some (mkRat 3 2))
      (some [ClusterNode.mk "Sample 0" (some 0) none,
             ClusterNode.mk "Sample 1" (some 0) none]))) =
      some (rtModel (ClusterNode.mk "Root" (some (mkRat 3 2))
        (some [ClusterNode.mk "Sample 0" (some 0) none,
               ClusterNode.mk "Sample 1" (some 0) none]))) ∧
    leafNames (rtModel (ClusterNode.mk "Root" (some (mkRat 3 2))
      (some [ClusterNode.mk "Sample 0" (some 0) none,
             ClusterNode.mk "Sample 1" (some 0) none]))) =
      leafNames (ClusterNode.mk "Root" (some (mkRat 3 2))
        (some [ClusterNode.mk "Sample 0" (some 0) none,
               ClusterNode.mk "Sample 1" (some 0) none])) :=
  newick_roundtrip (ClusterNode.mk "Root" (some (mkRat 3 2))
    (some [ClusterNode.mk "Sample 0" (some 0) none,
           ClusterNode.mk "Sample 1" (some 0) none])) (by decide)

/-! ## Defaults of `fromNewick` (claim C8) -/

/-- Induction over `RawNode` descending through the nested children. -/
theorem RawNode.rawNestedInd (P : RawNode → Prop)
    (h : ∀ nm ht cs, (∀ t, t ∈ cs.getD [] → P t) → P (.mk nm ht cs)) :
    ∀ t, P t
  | .mk nm ht cs => h nm ht cs (fun t ht' =>
      have hlt : sizeOf t < sizeOf (RawNode.mk nm ht cs) := by
        cases cs with
        | none => simp at ht'
        | some l =>
          simp only [Option.getD_some] at ht'
          have h1 := List.sizeOf_lt_of_mem ht'
          simp only [RawNode.mk.sizeOf_spec, Option.some.sizeOf_spec]
          omega
      RawNode.rawNestedInd P h t)
termination_by t => sizeOf t
decreasing_by exact hlt

mutual
/-- Specification relation, following the spec's words for the default
pass of the parser: the result node's name is the parsed name, or the empty
string if none was assigned; its height is the parsed height, or `0` if
none was assigned; children (when present) are related pointwise. -/
def specDefaultsFilled : RawNode → ClusterNode → Prop
  | .mk nm h cs, .mk nm2 h2 cs2 =>
    nm2 = nm.getD "" ∧ h2 = h.getD (some 0) ∧
    match cs, cs2 with
    | none, none => True
    | some l, some l2 => specDefaultsFilledList l l2
    | _, _ => False

def specDefaultsFilledList : List RawNode → List ClusterNode → Prop
  | [], [] => True
  | r :: rs, c :: cs => specDefaultsFilled r c ∧ specDefaultsFilledList rs cs
  | _, _ => False
end

theorem specDefaultsFilled_fillNode (raw : RawNode) :
    specDefaultsFilled raw (fillNode raw) := by
  induction raw using RawNode.rawNestedInd with
  | _ nm ht cs ih =>
    match cs with
    | none => exact ⟨rfl, rfl, trivial⟩
    | some l =>
      refine ⟨rfl, rfl, ?_⟩
      show specDefaultsFilledList l (fillList l)
      induction l with
      | nil => trivial
      | cons x xs ihx =>
        refine ⟨ih x (by simp), ihx ?_⟩
        intro y hy
        refine ih y ?_
        simp only [Option.getD_some] at hy ⊢
        exact List.mem_cons_of_mem x hy

/-- Counterexample to claim C8 as stated: on the input `"(A,B);"` the
root's name is unset in the input, yet `fromNewick` returns the root named
`";"` — the terminating semicolon, preceded by an empty piece, is assigned
as the root's name instead of the empty string. -/
theorem fromNewick_semicolon_root_name :
    (fromNewick "(A,B);").map ClusterNode.name = some ";" ∧
    (";" : String) ≠ "" :=
  ⟨rfl, by decide⟩

/-- Claim C8 (amended): for every input string on which `fromNewick` does
not throw, the returned tree is the parsed raw tree with defaults filled in:
every node has a defined name and height, a node whose name was never
assigned during parsing gets the empty string, a node whose height was
never assigned gets `0`, and names and `:height` values assigned by the
parser (including on internal nodes) are preserved — with the quirk that a
terminating `;` directly after an unnamed node is itself assigned as that
node's name (so such a node ends with name `";"`, not `""`). -/
theorem fromNewick_fills_defaults (s : String) (raw : RawNode)
    (hp : parseNewickRaw s = some raw) :
    fromNewick s = some (fillNode raw) ∧
    specDefaultsFilled raw (fillNode raw) := by
  refine ⟨?_, specDefaultsFilled_fillNode raw⟩
  rw [fromNewick, hp, Option.map_some']

/-- Witness for claim C8 on `"(A:0.5,B);"`: the leaf `A` keeps its parsed
height `1/2`, the heightless leaf `B` gets height `0`, and the unnamed root
(directly before the `;`) receives the name `";"`. -/
theorem fromNewick_fills_defaults_witness :
    fromNewick "(A:0.5,B);" =
      some (fillNode (RawNode.mk (some ";") none
        (some [RawNode.mk (some "A") (some (some (mkRat 1 2))) none,
               RawNode.mk (some "B") none none]))) ∧
    specDefaultsFilled
      (RawNode.mk (some ";") none
        (some [RawNode.mk (some "A") (some (some (mkRat 1 2))) none,
               RawNode.mk (some "B") none none]))
      (fillNode (RawNode.mk (some ";") none
        (some [RawNode.mk (some "A") (some (some (mkRat 1 2))) none,
               RawNode.mk (some "B") none none]))) :=
  fromNewick_fills_defaults "(A:0.5,B);"
    (RawNode.mk (some ";") none
      (some [RawNode.mk (some "A") (some (some (mkRat 1 2))) none,
             RawNode.mk (some "B") none none])) rfl

